import Mathlib

/-!
Verification of the audio-book conversion pipeline (backend/app/services).

Strings are modelled as `List Char`; bytes as `Nat`.  Each definition is a
shallow embedding of the Python function named in its doc comment.
-/

set_option maxRecDepth 100000

deriving instance DecidableEq for Except

/-- The set of characters matched by Python's regex `\s` on `str` patterns,
which coincides with `str.isspace` (used by `str.strip()` and `str.split()`):
space, the ASCII control whitespace, and the Unicode whitespace code points. -/
def isPySpace (c : Char) : Bool :=
  let n := c.toNat
  n == 32 || (9 ≤ n && n ≤ 13) || (28 ≤ n && n ≤ 31) || n == 0x85 || n == 0xa0 ||
  n == 0x1680 || (0x2000 ≤ n && n ≤ 0x200a) || n == 0x2028 || n == 0x2029 ||
  n == 0x202f || n == 0x205f || n == 0x3000

/-- Python `str.strip()` with no argument: remove leading and trailing
whitespace characters. -/
def pyStrip (s : List Char) : List Char :=
  ((s.dropWhile isPySpace).reverse.dropWhile isPySpace).reverse

/-- Helper for `pyWords`: accumulate the current word (reversed) while
scanning. -/
def pyWordsGo (cur : List Char) : List Char → List (List Char)
  | [] => if cur.isEmpty then [] else [cur.reverse]
  | c :: t =>
    if isPySpace c then
      if cur.isEmpty then pyWordsGo [] t else cur.reverse :: pyWordsGo [] t
    else
      pyWordsGo (c :: cur) t

/-- Python `str.split()` with no argument: split on runs of whitespace,
dropping empty pieces. -/
def pyWords (s : List Char) : List (List Char) := pyWordsGo [] s

theorem pyWords_nil : pyWords [] = [] := rfl

/-- Split of `firstOcc`: locate the leftmost occurrence of `pat` in `s`,
returning the prefix before it and the suffix after it. -/
def firstOcc (pat : List Char) : List Char → Option (List Char × List Char)
  | [] => if pat.isEmpty then some ([], []) else none
  | c :: t =>
    if pat.isPrefixOf (c :: t) then some ([], (c :: t).drop pat.length)
    else match firstOcc pat t with
      | some (pre, suf) => some (c :: pre, suf)
      | none => none

theorem firstOcc_spec (pat : List Char) :
    ∀ s pre suf, firstOcc pat s = some (pre, suf) →
      s = pre ++ pat ++ suf := by
  intro s
  induction s with
  | nil =>
    intro pre suf h
    simp only [firstOcc] at h
    by_cases hp : pat.isEmpty
    · rw [if_pos hp] at h
      simp only [Option.some.injEq, Prod.mk.injEq] at h
      obtain ⟨h1, h2⟩ := h
      subst h1; subst h2
      simp [List.isEmpty_iff.mp hp]
    · rw [if_neg hp] at h
      exact absurd h (by simp)
  | cons c t ih =>
    intro pre suf h
    simp only [firstOcc] at h
    by_cases hp : pat.isPrefixOf (c :: t)
    · rw [if_pos hp] at h
      simp only [Option.some.injEq, Prod.mk.injEq] at h
      obtain ⟨h1, h2⟩ := h
      obtain ⟨q, hq⟩ := List.isPrefixOf_iff_prefix.mp hp
      subst h1
      rw [← hq, List.drop_left] at h2
      subst h2
      simp [← hq]
    · rw [if_neg hp] at h
      cases hfo : firstOcc pat t with
      | none => rw [hfo] at h; exact absurd h (by simp)
      | some pr =>
        obtain ⟨pre', suf'⟩ := pr
        rw [hfo] at h
        simp only [Option.some.injEq, Prod.mk.injEq] at h
        obtain ⟨h1, h2⟩ := h
        subst h1; subst h2
        have := ih pre' suf' hfo
        simp [this]

theorem firstOcc_none_of_not_mem (pat : List Char) (c : Char)
    (hc : c ∈ pat) : ∀ s, c ∉ s → firstOcc pat s = none := by
  intro s hs
  cases hfo : firstOcc pat s with
  | none => rfl
  | some pr =>
    obtain ⟨pre, suf⟩ := pr
    have := firstOcc_spec pat s pre suf hfo
    exact absurd (this ▸ (by simp [hc] : c ∈ pre ++ pat ++ suf)) hs

/-- Length of the suffix returned by `firstOcc` is short enough for
termination of `pyReplace`. -/
theorem firstOcc_suf_length (pat : List Char) (hpat : pat ≠ [])
    (s pre suf : List Char) (h : firstOcc pat s = some (pre, suf)) :
    suf.length < s.length := by
  have hs := firstOcc_spec pat s pre suf h
  have : pat.length ≥ 1 := by
    cases pat with
    | nil => exact absurd rfl hpat
    | cons a l => simp [Nat.succ_le_succ (Nat.zero_le _)]
  rw [hs]
  simp only [List.length_append]
  omega

/-- Python `str.replace(old, new)`: replace non-overlapping occurrences of
`old` left to right.  (Python's behaviour for an empty `old` inserts `new`
everywhere; the program only calls it with non-empty patterns, and the model
returns `s` unchanged in that degenerate case.) -/
def pyReplace (pat new : List Char) (s : List Char) : List Char :=
  if hpat : pat = [] then s
  else
    match hfo : firstOcc pat s with
    | none => s
    | some (pre, suf) => pre ++ new ++ pyReplace pat new suf
termination_by s.length
decreasing_by exact firstOcc_suf_length pat hpat s pre suf hfo

theorem pyReplace_of_firstOcc_none (pat new s : List Char)
    (h : firstOcc pat s = none) : pyReplace pat new s = s := by
  rw [pyReplace]
  split
  · rfl
  · split
    · rfl
    · next pre suf heq => rw [h] at heq; exact absurd heq (by simp)

/-- If some character of the pattern never occurs in `s`, the replacement is
the identity. -/
theorem pyReplace_eq_self_of_not_mem (pat new s : List Char) (c : Char)
    (hc : c ∈ pat) (hs : c ∉ s) : pyReplace pat new s = s :=
  pyReplace_of_firstOcc_none pat new s (firstOcc_none_of_not_mem pat c hc s hs)

theorem pyReplace_self_aux (pat : List Char) :
    ∀ (n : Nat) (s : List Char), s.length ≤ n → pyReplace pat pat s = s := by
  intro n
  induction n with
  | zero =>
    intro s hs
    rw [pyReplace]
    split
    · rfl
    next hpat =>
      split
      · rfl
      next pre suf hfo =>
        have := firstOcc_suf_length pat hpat s pre suf hfo
        omega
  | succ n ih =>
    intro s hs
    rw [pyReplace]
    split
    · rfl
    next hpat =>
      split
      · rfl
      next pre suf hfo =>
        have hlt := firstOcc_suf_length pat hpat s pre suf hfo
        rw [ih suf (by omega)]
        exact (firstOcc_spec pat s pre suf hfo).symm

/-- Replacing a pattern by itself is the identity. -/
theorem pyReplace_self (pat s : List Char) : pyReplace pat pat s = s :=
  pyReplace_self_aux pat s.length s le_rfl

/-- One pass of `re.sub(r"^\s+|\s+$", "", text, flags=re.MULTILINE)` rendered
as the regex engine executes it: scan left to right; at a line start
(string start or just after a newline of the original string) the first
alternative deletes the maximal whitespace run; otherwise the second
alternative matches the maximal whitespace run backtracked to the rightmost
position standing before a newline or at the end of the string — that is, it
deletes the run up to (excluding) its last newline, or the whole run when the
run ends the string; scanning resumes after the deleted segment, so the
line-start flag for the next position is taken from the last deleted
character.  The first argument is fuel; every call below supplies at least
the length of the string, which the recursion never exhausts. -/
def trimGo : Nat → Bool → List Char → List Char
  | 0, _, _ => []
  | _ + 1, _, [] => []
  | fuel + 1, atStart, c :: rest =>
    if isPySpace c then
      let run := (c :: rest).takeWhile isPySpace
      let rest' := (c :: rest).dropWhile isPySpace
      if atStart then
        trimGo fuel (run.getLastD c == '\n') rest'
      else if rest'.isEmpty then []
      else
        match run.reverse.dropWhile (fun x => !(x == '\n')) with
        | _ :: p :: _ =>
          trimGo fuel (p == '\n')
            ('\n' :: (run.reverse.takeWhile (fun x => !(x == '\n'))).reverse ++ rest')
        | _ => c :: trimGo fuel (c == '\n') rest
    else
      c :: trimGo fuel (c == '\n') rest

/-- `re.sub(r"^\s+|\s+$", "", text, flags=re.MULTILINE)` (step 5c of
`TextProcessor.clean_text`). -/
def trimMultiline (s : List Char) : List Char := trimGo s.length true s

/-- Characters of the regex class `[ \t]`. -/
def isBlankOrTab (c : Char) : Bool := c == ' ' || c == '\t'

/-- Scanner for `re.sub(r"[ \t]+", " ", text)`: a maximal run of spaces and
tabs becomes a single space. -/
def collapseSpacesGo (inRun : Bool) : List Char → List Char
  | [] => []
  | c :: t =>
    if isBlankOrTab c then
      if inRun then collapseSpacesGo true t else ' ' :: collapseSpacesGo true t
    else c :: collapseSpacesGo false t

/-- `re.sub(r"[ \t]+", " ", text)` (step 5a of `clean_text`). -/
def collapseSpaces (s : List Char) : List Char := collapseSpacesGo false s

/-- Scanner for `re.sub(r"\n{2,}", "\n\n", text)`: `k` counts the newlines of
the current newline run already emitted; from the third one on they are
dropped. -/
def collapseNewlinesGo (k : Nat) : List Char → List Char
  | [] => []
  | c :: t =>
    if c == '\n' then
      if k < 2 then '\n' :: collapseNewlinesGo (k + 1) t
      else collapseNewlinesGo k t
    else c :: collapseNewlinesGo 0 t

/-- `re.sub(r"\n{2,}", "\n\n", text)` (step 5b of `clean_text`). -/
def collapseNewlines (s : List Char) : List Char := collapseNewlinesGo 0 s

/-- Code points of the accented letters listed in `clean_text`'s
`safe_pattern` character class. -/
def accentedCodes : List Nat :=
  [0xe0, 0xe1, 0xe2, 0xe4, 0xe7, 0xe8, 0xe9, 0xea, 0xeb, 0xef, 0xee, 0xf4,
   0xf6, 0xf9, 0xfa, 0xfb, 0xfc, 0xff, 0xc0, 0xc1, 0xc2, 0xc4, 0xc7, 0xc8,
   0xc9, 0xca, 0xcb, 0xcf, 0xce, 0xd4, 0xd6, 0xd9, 0xda, 0xdb, 0xdc, 0x178]

/-- Membership in `clean_text`'s `safe_pattern` class (step 4): ASCII
letters and digits, the listed accented letters, `\s`, and the listed
punctuation (the class also names `\n`, already contained in `\s`). -/
def isSafeChar (c : Char) : Bool :=
  let n := c.toNat
  (0x61 ≤ n && n ≤ 0x7a) || (0x41 ≤ n && n ≤ 0x5a) || (0x30 ≤ n && n ≤ 0x39) ||
  accentedCodes.contains n || isPySpace c ||
  n == 0x2e || n == 0x2c || n == 0x21 || n == 0x3f || n == 0x3b || n == 0x3a ||
  n == 0x28 || n == 0x29 || n == 0x2d || n == 0x27 || n == 0x22 ||
  n == 0xab || n == 0xbb

/-- Build a string from code points. -/
def strOfCodes (l : List Nat) : List Char := l.map Char.ofNat

/-- The `replacements` dict of `clean_text`, exactly as CPython parses the
source file: the keys are six combining marks, four zero-width characters,
the straight double quote mapped to itself (the file writes the intended
curly-quote keys as plain `"` characters, and the duplicate dict keys
collapse), one 53-character key produced by the two source lines that use
three consecutive apostrophes (Python reads them as one triple-quoted
string spanning the two lines), the em and en dashes, and the horizontal
ellipsis.  Order is dict insertion order, which `clean_text` iterates. -/
def replacements : List (List Char × List Char) :=
  [ (strOfCodes [0x303], []), (strOfCodes [0x301], []), (strOfCodes [0x300], []),
    (strOfCodes [0x302], []), (strOfCodes [0x30c], []), (strOfCodes [0x327], []),
    (strOfCodes [0x200b], []), (strOfCodes [0x200c], []), (strOfCodes [0x200d], []),
    (strOfCodes [0xfeff], []),
    (strOfCodes [0x22], strOfCodes [0x22]),
    (strOfCodes [58, 32, 34, 39, 34, 44, 32, 32, 32, 32, 32, 32, 35, 32, 76,
      69, 70, 84, 32, 83, 73, 78, 71, 76, 69, 32, 81, 85, 79, 84, 65, 84, 73,
      79, 78, 32, 77, 65, 82, 75, 10, 32, 32, 32, 32, 32, 32, 32, 32, 32, 32,
      32, 32], strOfCodes [39]),
    (strOfCodes [0x2014], strOfCodes [0x2d]),
    (strOfCodes [0x2013], strOfCodes [0x2d]),
    (strOfCodes [0x2026], strOfCodes [0x2e, 0x2e, 0x2e]) ]

/-- Step 3 of `clean_text`: the `for old, new in replacements.items():
text = text.replace(old, new)` loop. -/
def applyReplacements (s : List Char) : List Char :=
  replacements.foldl (fun t pr => pyReplace pr.1 pr.2 t) s

/-- `TextProcessor.clean_text`.  The two Unicode library calls are taken as
parameters: `nfc` stands for `unicodedata.normalize("NFC", ·)` and `isMn c`
for `unicodedata.category(c) == 'Mn'`. -/
def clean_text (nfc : List Char → List Char) (isMn : Char → Bool)
    (text : List Char) : List Char :=
  let t2 := (nfc text).filter (fun c => !(isMn c))
  let t4 := (applyReplacements t2).filter isSafeChar
  pyStrip (trimMultiline (collapseNewlines (collapseSpaces t4)))

/-- Scanner for `re.split(r"\n{2,}", text)`: `cur` is the reversed current
segment, `nl` the length of the newline run in progress; a run of length at
least two is a separator (greedy, so the whole run), a shorter one belongs
to the segment. -/
def splitNNGo (cur : List Char) (nl : Nat) : List Char → List (List Char)
  | [] =>
    if 2 ≤ nl then [cur.reverse, []]
    else [(List.replicate nl '\n' ++ cur).reverse]
  | c :: t =>
    if c == '\n' then splitNNGo cur (nl + 1) t
    else if 2 ≤ nl then cur.reverse :: splitNNGo [c] 0 t
    else splitNNGo (c :: (List.replicate nl '\n' ++ cur)) 0 t

/-- `re.split(r"\n{2,}", text)`, the paragraph split of
`TextProcessor.chunk_paragraphs`. -/
def splitOnDoubleNewlines (s : List Char) : List (List Char) :=
  splitNNGo [] 0 s

/-- `[p.strip() for p in re.split(r"\n{2,}", text) if p.strip()]`. -/
def paragraphsOf (text : List Char) : List (List Char) :=
  ((splitOnDoubleNewlines text).map pyStrip).filter (fun p => !p.isEmpty)

/-- The greedy packing loop of `chunk_paragraphs`, returning each chunk as
its list of paragraphs (`current_chunk`, in order); `curLen` mirrors
`current_length`, the sum of the paragraph lengths (the `"\n"` join
separators are not counted). -/
def chunkGroupsGo (maxChars : Nat) (cur : List (List Char)) (curLen : Nat) :
    List (List Char) → List (List (List Char))
  | [] => if cur.isEmpty then [] else [cur.reverse]
  | p :: ps =>
    if maxChars < curLen + p.length && !cur.isEmpty then
      cur.reverse :: chunkGroupsGo maxChars [p] p.length ps
    else
      chunkGroupsGo maxChars (p :: cur) (curLen + p.length) ps

/-- The chunks of `chunk_paragraphs`, as paragraph groups. -/
def chunkGroups (text : List Char) (maxChars : Nat) :
    List (List (List Char)) :=
  chunkGroupsGo maxChars [] 0 (paragraphsOf text)

/-- `TextProcessor.chunk_paragraphs(text, max_chars)`: each group yielded by
the loop is emitted as `"\n".join(current_chunk)`. -/
def chunk_paragraphs (text : List Char) (maxChars : Nat) : List (List Char) :=
  (chunkGroups text maxChars).map (List.intercalate ['\n'])

/-- Grouping of a list into consecutive groups of `n` elements (the last
group may be shorter); `cur` is the reversed group in progress and `cap` its
remaining capacity.  Mirrors iteration over `range(0, len(l), n)` with
slices `l[i:i+n]`. -/
def chunksOfGo (n : Nat) (cur : List α) (cap : Nat) : List α → List (List α)
  | [] => if cur.isEmpty then [] else [cur.reverse]
  | a :: t =>
    match cap with
    | 0 => cur.reverse :: chunksOfGo n [a] (n - 1) t
    | cap + 1 => chunksOfGo n (a :: cur) cap t

/-- Split `l` into slices of `n` elements.  Python's `range` raises
`ValueError` for a zero step; the model returns `[]` in that degenerate
case and is only used with positive `n`. -/
def chunksOf (n : Nat) (l : List α) : List (List α) :=
  if n = 0 then [] else chunksOfGo n [] n l

/-- `detector.Chapter`, the dataclass of `ChapterDetector`.  The
`estimated_duration_seconds` float is modelled as a rational. -/
structure Chapter where
  index : Nat
  title : List Char
  content : List Char
  startPage : Option Nat := none
  endPage : Option Nat := none
  estimatedWords : Nat := 0
  estimatedDurationSeconds : ℚ := 0
deriving DecidableEq, Repr

/-- The `f"{base_title} - Part {k}"` titles used by `_split_by_size` and
`_post_process_chapters`. -/
def partTitle (base : List Char) (k : Nat) : List Char :=
  base ++ " - Part ".toList ++ (toString k).toList

/-- Builder for `_split_by_size`: the `k`-th word group becomes the chapter
with local index `i = k` and title `f"{base_title} - Part {k+1}"`; the
content is `' '.join(chunk_words)` and `estimated_words` is
`len(chunk_words)`. -/
def splitBySizeGo (baseTitle : List Char) (i : Nat) :
    List (List (List Char)) → List Chapter
  | [] => []
  | g :: t =>
    { index := i, title := partTitle baseTitle (i + 1),
      content := List.intercalate [' '] g,
      estimatedWords := g.length } :: splitBySizeGo baseTitle (i + 1) t

/-- `ChapterDetector._split_by_size(text, base_title)` with
`chunk_size = maxWords` (the detector's `max_words_per_chapter`). -/
def split_by_size (maxWords : Nat) (text baseTitle : List Char) :
    List Chapter :=
  splitBySizeGo baseTitle 0 (chunksOf maxWords (pyWords text))

/-- The renumbering loop of `_post_process_chapters` over the sub-chapters of
a split: `sub.index = len(processed)` at append time (`start + i`) and
`sub.title = f"{chapter.title} - Part {idx+1}"`. -/
def renumberSubs (chTitle : List Char) (start i : Nat) :
    List Chapter → List Chapter
  | [] => []
  | s :: t =>
    { s with index := start + i, title := partTitle chTitle (i + 1) } ::
      renumberSubs chTitle start (i + 1) t

/-- The accumulation loop of `_post_process_chapters`: a chapter whose
`estimated_words` exceeds `maxWords` is replaced by its renumbered
`_split_by_size` sub-chapters, any other chapter is appended with its index
rewritten to `len(processed)`. -/
def postProcessGo (maxWords : Nat) (processed : List Chapter) :
    List Chapter → List Chapter
  | [] => processed
  | ch :: t =>
    if maxWords < ch.estimatedWords then
      postProcessGo maxWords
        (processed ++
          renumberSubs ch.title processed.length 0
            (split_by_size maxWords ch.content ch.title)) t
    else
      postProcessGo maxWords (processed ++ [{ ch with index := processed.length }]) t

/-- `ChapterDetector._post_process_chapters(chapters)` with
`maxWords = max_chapter_duration_minutes * TTS_WPM` (TTS_WPM = 150): the
split/renumber loop followed by the duration pass
`estimated_duration_seconds = (estimated_words / 150) * 60`.  Every branch of
`detect_chapters` (EPUB or PDF, TOC, content analysis or size fallback)
returns `_post_process_chapters` applied to the chapters it extracted, so
properties proved for every input list hold for every detector output. -/
def post_process_chapters (maxWords : Nat) (chapters : List Chapter) :
    List Chapter :=
  (postProcessGo maxWords [] chapters).map fun c =>
    { c with estimatedDurationSeconds := ((c.estimatedWords : ℚ) / 150) * 60 }

/-- The chapter metadata dict built by `BookSplitter.split_book` for each
detected chapter (the manifest entry): index, title and word count are taken
from the `Chapter` record, `status` starts `'pending'`, `audio_file` and
`error` start empty.  Filename generation (`FileNamingService`) and text
cleaning (`TextCleaner.clean_for_tts`) touch neither indices nor order and
are taken as parameters. -/
structure ChapterMeta where
  index : Nat
  title : List Char
  filename : List Char
  audioFile : Option (List Char)
  wordCount : Nat
  estimatedDurationSeconds : ℚ
  status : List Char
  error : Option (List Char)
deriving DecidableEq, Repr

/-- The `for chapter in chapters` loop of `split_book`, which appends one
metadata dict per chapter in detection order. -/
def split_book_chapter_meta (filenameOf : Nat → List Char → List Char)
    (chapters : List Chapter) : List ChapterMeta :=
  chapters.map fun ch =>
    { index := ch.index, title := ch.title,
      filename := filenameOf ch.index ch.title,
      audioFile := none, wordCount := ch.estimatedWords,
      estimatedDurationSeconds := ch.estimatedDurationSeconds,
      status := "pending".toList, error := none }

/-- One WAV file as `AudioProcessor` reads it: the `wave` module header
fields checked by the code, plus the raw PCM frame bytes. -/
structure WavData where
  channels : Nat
  sampwidth : Nat
  framerate : Nat
  frames : List Nat
deriving DecidableEq, Repr

/-- `AudioProcessor._write_silence(dst, seconds, sample_rate)`: nothing for
`seconds <= 0`, otherwise `b"\x00\x00" * int(seconds * sample_rate)` — that
is, `2 * int(seconds * sample_rate)` zero bytes, independent of the
channel count and sample width of the destination file. -/
def write_silence (seconds : ℚ) (sampleRate : Nat) : List Nat :=
  if seconds ≤ 0 then []
  else List.replicate (2 * (seconds * sampleRate).floor.toNat) 0

/-- The `for i, wav_file in enumerate(wav_files)` loop of
`concatenate_wav_files`: append each file's frames (after the
`_append_wav` format asserts against the first file's header), inserting
`_write_silence` between consecutive files when `pause_between > 0`. -/
def concatWavGo (ch sw fr : Nat) (pause : ℚ) :
    List WavData → Except (List Char) (List Nat)
  | [] => .ok []
  | f :: rest =>
    if f.channels = ch ∧ f.sampwidth = sw ∧ f.framerate = fr then
      match rest with
      | [] => .ok f.frames
      | _ :: _ =>
        (concatWavGo ch sw fr pause rest).map fun tail =>
          f.frames ++ (if 0 < pause then write_silence pause fr else []) ++ tail
    else .error "AssertionError".toList

/-- `AudioProcessor.concatenate_wav_files(wav_files, output_path,
pause_between)`: empty input raises `ValueError`; the first file fixes the
output format; the result is the output file's PCM byte stream. -/
def concatenate_wav_files (wavFiles : List WavData) (pause : ℚ) :
    Except (List Char) (List Nat) :=
  match wavFiles with
  | [] => .error "No WAV files to concatenate".toList
  | f0 :: _ => concatWavGo f0.channels f0.sampwidth f0.framerate pause wavFiles

/-- `tts.ConversionStatus`. -/
inductive ConversionStatus where
  | pending | processing | completed | failed | cancelled
deriving DecidableEq, Repr

/-- One entry of the manifest's `chapters` list, with the fields
`TTSService` reads and writes. -/
structure ManifestChapter where
  title : List Char
  status : List Char
  textFile : List Char
  audioFile : Option (List Char) := none
  error : Option (List Char) := none
deriving DecidableEq, Repr

/-- The manifest JSON as `convert_book` loads it. -/
structure Manifest where
  bookTitle : List Char
  totalChapters : Nat
  chapters : List ManifestChapter
deriving DecidableEq, Repr

/-- `tts.ConversionJob` (timestamps omitted: wall-clock strings). -/
structure ConvJob where
  bookId : List Char
  bookTitle : List Char
  totalChapters : Nat
  chaptersCompleted : Nat := 0
  status : ConversionStatus := .pending
  error : Option (List Char) := none
  currentChapter : Option (List Char) := none
  outputZip : Option (List Char) := none
deriving DecidableEq, Repr

/-- `str(e)` for the `NameError` raised by `_process_chapters` (see
`process_chapters` below). -/
def nameErrorManifestPath : List Char :=
  strOfCodes [110, 97, 109, 101, 32, 39, 109, 97, 110, 105, 102, 101, 115,
    116, 95, 112, 97, 116, 104, 39, 32, 105, 115, 32, 110, 111, 116, 32,
    100, 101, 102, 105, 110, 101, 100]

/-- `TTSService._process_chapters(job, manifest, progress_callback)`.  Its
first statement, `output_dir = Path(manifest_path).parent`, reads the name
`manifest_path`, which is neither a parameter, a local, nor a module global
of `tts.py`; under CPython the coroutine therefore raises
`NameError("name 'manifest_path' is not defined")` before looking at any
chapter, whatever the manifest and the synthesizer do.  `synth` abstracts
`_convert_chapter` (the Piper subprocess). -/
def process_chapters
    (synth : ManifestChapter → Except (List Char) (List Char))
    (job : ConvJob) (manifest : Manifest) :
    Except (List Char) (ConvJob × Manifest) :=
  .error nameErrorManifestPath

/-- The chapter loop of `_process_chapters` (lines 175–227) as it would run
if `output_dir` were in scope — the code path the comments
(`# Continue with other chapters`) and the repository's own tests describe:
already-completed chapters are skipped and counted; a failed conversion
marks only that chapter `'failed'` with the captured error and the loop
continues; a successful one marks it `'completed'`, records the audio file
and increments `chapters_completed`.  Returns the final
`chapters_completed` (starting from `acc`) and the updated chapter list. -/
def process_chapters_loop
    (synth : ManifestChapter → Except (List Char) (List Char)) (acc : Nat) :
    List ManifestChapter → Nat × List ManifestChapter
  | [] => (acc, [])
  | ch :: t =>
    if ch.status = "completed".toList then
      let r := process_chapters_loop synth (acc + 1) t
      (r.1, ch :: r.2)
    else
      match synth ch with
      | .ok path =>
        let r := process_chapters_loop synth (acc + 1) t
        (r.1, { ch with status := "completed".toList, audioFile := some path } :: r.2)
      | .error e =>
        let r := process_chapters_loop synth acc t
        (r.1, { ch with status := "failed".toList, error := some e } :: r.2)

/-- `TTSService.convert_book(book_id, manifest_path)`: build the job, run
`_process_chapters` inside `try`; on success create the archive when
`chapters_completed > 0` and mark the job `COMPLETED`; on any exception mark
it `FAILED` with `str(e)`.  The archive path is abstracted by
`archivePath` (`_create_archive` also reads the unbound `manifest_path`,
but it is never reached).  Returns the job together with the manifest state
written back by `_update_manifest`. -/
def convert_book (synth : ManifestChapter → Except (List Char) (List Char))
    (archivePath : List Char) (bookId : List Char) (manifest : Manifest) :
    ConvJob × Manifest :=
  let job0 : ConvJob :=
    { bookId := bookId, bookTitle := manifest.bookTitle,
      totalChapters := manifest.totalChapters, status := .processing }
  match process_chapters synth job0 manifest with
  | .ok (job1, m1) =>
    let job2 :=
      if 0 < job1.chaptersCompleted
      then { job1 with outputZip := some archivePath } else job1
    ({ job2 with status := .completed }, m1)
  | .error e =>
    ({ job0 with status := .failed, error := some e }, manifest)

/-- The validation and truncation performed by `TTSEngine.synthesize_text`
on its `text` argument before the Piper subprocess call: empty (after
`strip`) text raises `TTSEngineError`; text longer than 1000 characters is
replaced by its first 1000 characters followed by `"..."`; the result is
what `process.communicate` sends to the engine's stdin. -/
def synthesize_text_stdin (text : List Char) : Except (List Char) (List Char) :=
  if (pyStrip text).isEmpty then .error "Empty text provided".toList
  else .ok (if 1000 < text.length then text.take 1000 ++ "...".toList else text)

/-- Truncation to 32 bits. -/
def w32 (n : Nat) : Nat := n % 4294967296

/-- 32-bit right rotation. -/
def rotr32 (k x : Nat) : Nat := w32 ((x >>> k) ||| (x <<< (32 - k)))

/-- SHA-256 round constants. -/
def sha256K : List Nat :=
  [1116352408, 1899447441, 3049323471, 3921009573, 961987163, 1508970993,
   2453635748, 2870763221, 3624381080, 310598401, 607225278, 1426881987,
   1925078388, 2162078206, 2614888103, 3248222580, 3835390401, 4022224774,
   264347078, 604807628, 770255983, 1249150122, 1555081692, 1996064986,
   2554220882, 2821834349, 2952996808, 3210313671, 3336571891, 3584528711,
   113926993, 338241895, 666307205, 773529912, 1294757372, 1396182291,
   1695183700, 1986661051, 2177026350, 2456956037, 2730485921, 2820302411,
   3259730800, 3345764771, 3516065817, 3600352804, 4094571909, 275423344,
   430227734, 506948616, 659060556, 883997877, 958139571, 1322822218,
   1537002063, 1747873779, 1955562222, 2024104815, 2227730452, 2361852424,
   2428436474, 2756734187, 3204031479, 3329325298]

/-- SHA-256 initial hash value. -/
def sha256H0 : List Nat :=
  [1779033703, 3144134277, 1013904242, 2773480762, 1359893119, 2600822924,
   528734635, 1541459225]

/-- Big-endian 8-byte encoding. -/
def bigEndian64 (n : Nat) : List Nat :=
  [7, 6, 5, 4, 3, 2, 1, 0].map fun i => (n >>> (8 * i)) % 256

/-- SHA-256 message padding: `0x80`, zeros up to 56 mod 64, then the
bit length, big endian. -/
def sha256Pad (msg : List Nat) : List Nat :=
  msg ++ [0x80] ++ List.replicate ((119 - msg.length % 64) % 64) 0 ++
    bigEndian64 (8 * msg.length)

/-- Big-endian bytes to 32-bit words. -/
def bytesToWords : List Nat → List Nat
  | b0 :: b1 :: b2 :: b3 :: t =>
    (((b0 * 256 + b1) * 256 + b2) * 256 + b3) :: bytesToWords t
  | _ => []

/-- Message-schedule extension; `revW` holds the schedule so far, newest
word first. -/
def sha256ScheduleGo : Nat → List Nat → List Nat
  | 0, revW => revW
  | k + 1, revW =>
    let s0 :=
      rotr32 7 (revW.getD 14 0) ^^^ rotr32 18 (revW.getD 14 0) ^^^
        (revW.getD 14 0 >>> 3)
    let s1 :=
      rotr32 17 (revW.getD 1 0) ^^^ rotr32 19 (revW.getD 1 0) ^^^
        (revW.getD 1 0 >>> 10)
    sha256ScheduleGo k (w32 (revW.getD 15 0 + s0 + revW.getD 6 0 + s1) :: revW)

/-- The 64-word message schedule of one block. -/
def sha256Schedule (block : List Nat) : List Nat :=
  (sha256ScheduleGo 48 block.reverse).reverse

/-- One compression round: `regs = [a, b, c, d, e, f, g, h]`. -/
def sha256Round (wt kt : Nat) (regs : List Nat) : List Nat :=
  let a := regs.getD 0 0
  let b := regs.getD 1 0
  let c := regs.getD 2 0
  let d := regs.getD 3 0
  let e := regs.getD 4 0
  let f := regs.getD 5 0
  let g := regs.getD 6 0
  let h := regs.getD 7 0
  let s1 := rotr32 6 e ^^^ rotr32 11 e ^^^ rotr32 25 e
  let ch := (e &&& f) ^^^ ((e ^^^ 0xffffffff) &&& g)
  let t1 := w32 (h + s1 + ch + kt + wt)
  let s0 := rotr32 2 a ^^^ rotr32 13 a ^^^ rotr32 22 a
  let maj := (a &&& b) ^^^ (a &&& c) ^^^ (b &&& c)
  let t2 := w32 (s0 + maj)
  [w32 (t1 + t2), a, b, c, w32 (d + t1), e, f, g]

/-- Run rounds `t, t+1, …` for `fuel` steps. -/
def sha256RoundsGo (W : List Nat) (t : Nat) : Nat → List Nat → List Nat
  | 0, regs => regs
  | fuel + 1, regs =>
    sha256RoundsGo W (t + 1) fuel (sha256Round (W.getD t 0) (sha256K.getD t 0) regs)

/-- Compress one 16-word block into the running hash. -/
def sha256Compress (H block : List Nat) : List Nat :=
  let regs := sha256RoundsGo (sha256Schedule block) 0 64 H
  (H.zip regs).map fun p => w32 (p.1 + p.2)

/-- SHA-256 of a byte string, as 32 digest bytes. -/
def sha256 (msg : List Nat) : List Nat :=
  let H := (chunksOf 16 (bytesToWords (sha256Pad msg))).foldl sha256Compress sha256H0
  H.foldr (fun wrd acc =>
    (wrd >>> 24) % 256 :: (wrd >>> 16) % 256 :: (wrd >>> 8) % 256 :: wrd % 256 :: acc) []

/-- Lower-case hex digit. -/
def hexDigit (n : Nat) : Char :=
  if n < 10 then Char.ofNat (48 + n) else Char.ofNat (87 + n)

/-- `hashlib`'s `hexdigest()`: lower-case hex of the digest bytes. -/
def hexDigest (bytes : List Nat) : List Char :=
  bytes.foldr (fun b acc => hexDigit (b / 16) :: hexDigit (b % 16) :: acc) []

/-- `BookSplitter._generate_book_id(file_path)`: SHA-256 over the file's
bytes (the 8192-byte read loop feeds the same byte stream as one update)
followed by an update with `str(datetime.now().timestamp()).encode()`, then
the first 12 hex digits.  `tsBytes` stands for the encoded timestamp string;
feeding two updates equals hashing the concatenation. -/
def generate_book_id (content tsBytes : List Nat) : List Char :=
  (hexDigest (sha256 (content ++ tsBytes))).take 12

/-- ASCII bytes of a string (the timestamp strings are ASCII, where UTF-8 is
the identity). -/
def asciiBytes (s : List Char) : List Nat := s.map Char.toNat

/-- C10: for every text longer than 1000 characters that passes
`synthesize_text`'s empty-text check, the text actually sent to the Piper
subprocess is the first 1000 characters followed by `"..."` — everything
beyond position 1000 is silently dropped from the synthesized audio. -/
theorem C10_synthesis_input_truncation (text : List Char)
    (hne : pyStrip text ≠ []) (hlen : 1000 < text.length) :
    synthesize_text_stdin text = .ok (text.take 1000 ++ "...".toList) := by
  have h1 : (pyStrip text).isEmpty = false := by
    simpa [List.isEmpty_iff] using hne
  simp [synthesize_text_stdin, h1, hlen]

/-- Witness for C10 at a concrete 1001-character text. -/
theorem C10_witness :
    pyStrip (List.replicate 1001 'a') ≠ [] ∧
    1000 < (List.replicate 1001 'a').length ∧
    synthesize_text_stdin (List.replicate 1001 'a') =
      .ok ((List.replicate 1001 'a').take 1000 ++ "...".toList) :=
  ⟨by decide, by decide,
    C10_synthesis_input_truncation (List.replicate 1001 'a') (by decide) (by decide)⟩

/-- The five-chapter manifest of the C1 scenario, all chapters pending. -/
def fiveChapterManifest : Manifest :=
  { bookTitle := "Book".toList, totalChapters := 5,
    chapters := (List.range 5).map fun i =>
      { title := "Chapter ".toList ++ (toString (i + 1)).toList,
        status := "pending".toList,
        textFile := (toString (i + 1)).toList } }

/-- A synthesizer that fails exactly on chapter 3 of the scenario. -/
def failOnChapterThree (ch : ManifestChapter) : Except (List Char) (List Char) :=
  if ch.title = "Chapter 3".toList then .error "SynthesisError".toList
  else .ok ("audio_".toList ++ ch.title)

/-- C1 (against the code as written): on the 5-chapter book where exactly
chapter 3 fails synthesis, `convert_book` ends with the job `FAILED`
carrying the `NameError` message, `chapters_completed = 0`, and every
chapter still `'pending'` — because `_process_chapters` reads the unbound
name `manifest_path` before touching any chapter.  In particular the claimed
outcome (`completed` with `chapters_completed = 4`) does not occur. -/
theorem C1_isolation_defeated_by_nameerror :
    (convert_book failOnChapterThree "zip".toList "b1".toList
        fiveChapterManifest).1.status = .failed ∧
    (convert_book failOnChapterThree "zip".toList "b1".toList
        fiveChapterManifest).1.error = some nameErrorManifestPath ∧
    (convert_book failOnChapterThree "zip".toList "b1".toList
        fiveChapterManifest).1.chaptersCompleted = 0 ∧
    (convert_book failOnChapterThree "zip".toList "b1".toList
        fiveChapterManifest).2 = fiveChapterManifest ∧
    ¬((convert_book failOnChapterThree "zip".toList "b1".toList
        fiveChapterManifest).1.status = .completed ∧
      (convert_book failOnChapterThree "zip".toList "b1".toList
        fiveChapterManifest).1.chaptersCompleted = 4) := by
  decide

/-- The chapter loop of `_process_chapters` taken on its own (as it would run
with `output_dir` in scope) does implement the claimed isolation on the C1
scenario: four chapters complete, chapter 3 alone ends `'failed'` with its
error recorded, and the chapters after it are still processed. -/
theorem process_chapters_loop_isolation_demo :
    (process_chapters_loop failOnChapterThree 0 fiveChapterManifest.chapters).1 = 4 ∧
    ((process_chapters_loop failOnChapterThree 0 fiveChapterManifest.chapters).2.map
        (·.status)) =
      ["completed".toList, "completed".toList, "failed".toList,
       "completed".toList, "completed".toList] ∧
    ((process_chapters_loop failOnChapterThree 0 fiveChapterManifest.chapters).2.map
        (·.error)) =
      [none, none, some "SynthesisError".toList, none, none] := by
  decide

/-- C8: for every conversion run whose final manifest has no chapter
`'completed'`, the archive step is skipped (`output_zip` stays empty) and the
job's terminal status is `FAILED`. -/
theorem C8_zero_completion_failure
    (synth : ManifestChapter → Except (List Char) (List Char))
    (archivePath bookId : List Char) (m : Manifest)
    (hnc : ∀ ch ∈ (convert_book synth archivePath bookId m).2.chapters,
        ch.status ≠ "completed".toList) :
    (convert_book synth archivePath bookId m).1.outputZip = none ∧
    (convert_book synth archivePath bookId m).1.status = .failed :=
  ⟨rfl, rfl⟩

/-- Witness for C8 at the concrete C1 scenario. -/
theorem C8_witness :
    (∀ ch ∈ (convert_book failOnChapterThree "zip".toList "b1".toList
        fiveChapterManifest).2.chapters, ch.status ≠ "completed".toList) ∧
    (convert_book failOnChapterThree "zip".toList "b1".toList
        fiveChapterManifest).1.outputZip = none ∧
    (convert_book failOnChapterThree "zip".toList "b1".toList
        fiveChapterManifest).1.status = .failed :=
  ⟨by decide, C8_zero_completion_failure _ _ _ _ (by decide)⟩

/-- C9 counterexample: the book id is not a function of the uploaded bytes
alone — over byte-identical (empty) content, the timestamp strings
`"1700000000.0"` and `"1700000000.5"` hash to different ids. -/
theorem C9_counterexample :
    ¬ ∀ (content ts1 ts2 : List Nat),
        generate_book_id content ts1 = generate_book_id content ts2 := fun h =>
  absurd
    (h [] (asciiBytes "1700000000.0".toList) (asciiBytes "1700000000.5".toList))
    (by decide)

/-- C9 amended: the book id is a function of the hashed byte stream — the
file content followed by the encoded timestamp — alone: two runs produce the
same id exactly when those streams coincide, so byte-identical uploads
deduplicate only at equal timestamps. -/
theorem C9_book_id_function_of_content_and_timestamp
    (c1 t1 c2 t2 : List Nat) (h : c1 ++ t1 = c2 ++ t2) :
    generate_book_id c1 t1 = generate_book_id c2 t2 := by
  unfold generate_book_id
  rw [h]

/-- Witness for the amended C9 at concrete byte streams. -/
theorem C9_witness :
    (([3, 4] ++ [53] : List Nat) = [3] ++ [4, 53]) ∧
    generate_book_id [3, 4] [53] = generate_book_id [3] [4, 53] :=
  ⟨by decide, C9_book_id_function_of_content_and_timestamp [3, 4] [53] [3] [4, 53] (by decide)⟩

theorem chunksOfGo_length_le {α : Type} (n : Nat) (hn : 1 ≤ n) :
    ∀ (l : List α) (cur : List α) (cap : Nat), cur.length + cap = n →
      ∀ g ∈ chunksOfGo n cur cap l, g.length ≤ n := by
  intro l
  induction l with
  | nil =>
    intro cur cap hinv g hg
    simp only [chunksOfGo] at hg
    by_cases hc : cur.isEmpty
    · simp [hc] at hg
    · simp [hc] at hg
      subst hg
      simp
      omega
  | cons a t ih =>
    intro cur cap hinv g hg
    simp only [chunksOfGo] at hg
    cases cap with
    | zero =>
      simp only [List.mem_cons] at hg
      rcases hg with hg | hg
      · subst hg; simp; omega
      · refine ih [a] (n - 1) ?_ g hg
        simp
        omega
    | succ cap =>
      refine ih (a :: cur) cap ?_ g hg
      simp at hinv ⊢
      omega

theorem chunksOf_length_le {α : Type} (n : Nat) (l : List α) :
    ∀ g ∈ chunksOf n l, g.length ≤ n := by
  intro g hg
  unfold chunksOf at hg
  by_cases hn : n = 0
  · simp [hn] at hg
  · rw [if_neg hn] at hg
    exact chunksOfGo_length_le n (by omega) l [] n (by simp) g hg

theorem splitBySizeGo_words (baseTitle : List Char) :
    ∀ (groups : List (List (List Char))) (i : Nat) (c : Chapter),
      c ∈ splitBySizeGo baseTitle i groups →
      ∃ g ∈ groups, c.estimatedWords = g.length := by
  intro groups
  induction groups with
  | nil => intro i c hc; simp [splitBySizeGo] at hc
  | cons g t ih =>
    intro i c hc
    simp only [splitBySizeGo, List.mem_cons] at hc
    rcases hc with hc | hc
    · exact ⟨g, by simp, by simp [hc]⟩
    · obtain ⟨g', hg', hw⟩ := ih (i + 1) c hc
      exact ⟨g', by simp [hg'], hw⟩

/-- Every sub-chapter produced by `_split_by_size` has
`estimated_words ≤ maxWords`. -/
theorem split_by_size_words_le (maxWords : Nat) (text baseTitle : List Char) :
    ∀ c ∈ split_by_size maxWords text baseTitle,
      c.estimatedWords ≤ maxWords := by
  intro c hc
  obtain ⟨g, hg, hw⟩ := splitBySizeGo_words baseTitle _ 0 c hc
  rw [hw]
  exact chunksOf_length_le maxWords (pyWords text) g hg

theorem renumberSubs_words (chTitle : List Char) :
    ∀ (l : List Chapter) (start i : Nat) (c : Chapter),
      c ∈ renumberSubs chTitle start i l →
      ∃ c₀ ∈ l, c.estimatedWords = c₀.estimatedWords := by
  intro l
  induction l with
  | nil => intro start i c hc; simp [renumberSubs] at hc
  | cons s t ih =>
    intro start i c hc
    simp only [renumberSubs, List.mem_cons] at hc
    rcases hc with hc | hc
    · exact ⟨s, by simp, by simp [hc]⟩
    · obtain ⟨c₀, hc₀, hw⟩ := ih start (i + 1) c hc
      exact ⟨c₀, by simp [hc₀], hw⟩

theorem postProcessGo_bound (maxWords : Nat) :
    ∀ (rest acc : List Chapter),
      (∀ c ∈ acc, c.estimatedWords ≤ maxWords) →
      ∀ c ∈ postProcessGo maxWords acc rest, c.estimatedWords ≤ maxWords := by
  intro rest
  induction rest with
  | nil => intro acc hacc c hc; exact hacc c hc
  | cons ch t ih =>
    intro acc hacc c hc
    simp only [postProcessGo] at hc
    by_cases hbig : maxWords < ch.estimatedWords
    · rw [if_pos hbig] at hc
      refine ih _ ?_ c hc
      intro c' hc'
      rcases List.mem_append.mp hc' with h | h
      · exact hacc c' h
      · obtain ⟨c₀, hc₀, hw⟩ := renumberSubs_words ch.title _ _ 0 c' h
        rw [hw]
        exact split_by_size_words_le maxWords ch.content ch.title c₀ hc₀
    · rw [if_neg hbig] at hc
      refine ih _ ?_ c hc
      intro c' hc'
      rcases List.mem_append.mp hc' with h | h
      · exact hacc c' h
      · simp at h
        subst h
        simp
        omega

/-- C3: post-split size bound — after `_post_process_chapters` (which every
branch of `detect_chapters` applies to the chapters it extracted), every
chapter's word count is at most `max_chapter_minutes * 150`. -/
theorem C3_post_split_size_bound (minutes : Nat) (hmin : 1 ≤ minutes)
    (chapters : List Chapter) :
    ∀ c ∈ post_process_chapters (minutes * 150) chapters,
      c.estimatedWords ≤ minutes * 150 := by
  intro c hc
  unfold post_process_chapters at hc
  obtain ⟨c₀, hc₀, hmap⟩ := List.mem_map.mp hc
  have := postProcessGo_bound (minutes * 150) chapters [] (by simp) c₀ hc₀
  rw [← hmap]
  simpa using this

/-- Witness for C3 on a one-chapter list whose 8-word chapter splits under a
3-word bound: wait — the bound is `minutes * 150`; use a concrete list. -/
theorem C3_witness :
    (1 ≤ 1) ∧
    ∀ c ∈ post_process_chapters (1 * 150)
        [{ index := 0, title := "T".toList, content := "a b c".toList,
           estimatedWords := 200 }],
      c.estimatedWords ≤ 1 * 150 :=
  ⟨le_rfl, C3_post_split_size_bound 1 le_rfl _⟩

theorem renumberSubs_map_index (chTitle : List Char) :
    ∀ (l : List Chapter) (start i : Nat),
      (renumberSubs chTitle start i l).map (·.index) =
        List.range' (start + i) l.length := by
  intro l
  induction l with
  | nil => intro start i; simp [renumberSubs]
  | cons s t ih =>
    intro start i
    simp only [renumberSubs, List.map_cons, List.length_cons, List.range'_succ]
    rw [ih start (i + 1), Nat.add_assoc]

theorem renumberSubs_length (chTitle : List Char) (l : List Chapter)
    (start i : Nat) : (renumberSubs chTitle start i l).length = l.length := by
  have := congrArg List.length (renumberSubs_map_index chTitle l start i)
  simpa using this

theorem postProcessGo_map_index (maxWords : Nat) :
    ∀ (rest acc : List Chapter),
      acc.map (·.index) = List.range acc.length →
      (postProcessGo maxWords acc rest).map (·.index) =
        List.range (postProcessGo maxWords acc rest).length := by
  intro rest
  induction rest with
  | nil => intro acc h; simpa [postProcessGo] using h
  | cons ch t ih =>
    intro acc h
    simp only [postProcessGo]
    by_cases hbig : maxWords < ch.estimatedWords
    · rw [if_pos hbig]
      apply ih
      rw [List.map_append, h, renumberSubs_map_index, List.length_append,
        renumberSubs_length, List.range_eq_range', List.range_eq_range',
        Nat.add_zero]
      have hr := List.range'_append_1 0 acc.length
        (split_by_size maxWords ch.content ch.title).length
      rw [Nat.zero_add, Nat.add_comm] at hr
      exact hr
    · rw [if_neg hbig]
      apply ih
      rw [List.map_append, h, List.length_append]
      simp [List.range_succ]

/-- C7: index contiguity — the chapters returned by
`_post_process_chapters` carry indices forming exactly `0..n-1` in list
order, and the `split_book` manifest entries keep those indices and that
order unchanged. -/
theorem C7_index_contiguity (minutes : Nat) (hmin : 1 ≤ minutes)
    (filenameOf : Nat → List Char → List Char) (chapters : List Chapter) :
    ((post_process_chapters (minutes * 150) chapters).map (·.index) =
      List.range (post_process_chapters (minutes * 150) chapters).length) ∧
    ((split_book_chapter_meta filenameOf
        (post_process_chapters (minutes * 150) chapters)).map (·.index) =
      (post_process_chapters (minutes * 150) chapters).map (·.index)) := by
  constructor
  · unfold post_process_chapters
    rw [List.map_map, List.length_map]
    simpa [Function.comp] using
      postProcessGo_map_index (minutes * 150) chapters [] (by simp)
  · simp [split_book_chapter_meta, List.map_map]

/-- Witness for C7 at a concrete two-chapter list (one of which splits). -/
theorem C7_witness :
    (1 ≤ 1) ∧
    (((post_process_chapters (1 * 150)
        [{ index := 0, title := "A".toList, content := "x y z".toList,
           estimatedWords := 3 },
         { index := 1, title := "B".toList, content := "u v".toList,
           estimatedWords := 200 }]).map (·.index) =
      List.range (post_process_chapters (1 * 150)
        [{ index := 0, title := "A".toList, content := "x y z".toList,
           estimatedWords := 3 },
         { index := 1, title := "B".toList, content := "u v".toList,
           estimatedWords := 200 }]).length) ∧
    ((split_book_chapter_meta (fun _ _ => [])
        (post_process_chapters (1 * 150)
        [{ index := 0, title := "A".toList, content := "x y z".toList,
           estimatedWords := 3 },
         { index := 1, title := "B".toList, content := "u v".toList,
           estimatedWords := 200 }])).map (·.index) =
      (post_process_chapters (1 * 150)
        [{ index := 0, title := "A".toList, content := "x y z".toList,
           estimatedWords := 3 },
         { index := 1, title := "B".toList, content := "u v".toList,
           estimatedWords := 200 }]).map (·.index))) :=
  ⟨le_rfl, C7_index_contiguity 1 le_rfl (fun _ _ => []) _⟩

theorem intercalate_cons₂ (s a b : List Char) (u : List (List Char)) :
    List.intercalate s (a :: b :: u) = a ++ s ++ List.intercalate s (b :: u) := by
  simp [List.intercalate, List.intersperse_cons₂]

/-- Length of a `"\n".join`: the paragraph lengths plus one separator
character between consecutive paragraphs. -/
theorem intercalate_single_length (x : Char) :
    ∀ (g : List (List Char)), g ≠ [] →
      (List.intercalate [x] g).length = (g.map List.length).sum + (g.length - 1) := by
  intro g
  induction g with
  | nil => intro h; exact absurd rfl h
  | cons a t ih =>
    intro _
    cases t with
    | nil => simp [List.intercalate]
    | cons b u =>
      have h2 := ih (by simp)
      rw [intercalate_cons₂]
      simp only [List.length_append, h2, List.map_cons, List.sum_cons,
        List.length_cons, List.length_nil]
      omega

theorem chunkGroupsGo_flatten (m : Nat) :
    ∀ (ps cur : List (List Char)) (curLen : Nat),
      (chunkGroupsGo m cur curLen ps).flatten = cur.reverse ++ ps := by
  intro ps
  induction ps with
  | nil =>
    intro cur curLen
    by_cases hc : cur.isEmpty
    · simp [chunkGroupsGo, hc, List.isEmpty_iff.mp hc]
    · simp [chunkGroupsGo, hc]
  | cons p t ih =>
    intro cur curLen
    simp only [chunkGroupsGo]
    by_cases hcond : (decide (m < curLen + p.length) && !cur.isEmpty) = true
    · rw [if_pos hcond]
      simp [ih]
    · rw [if_neg hcond]
      rw [ih]
      simp

theorem chunkGroupsGo_inv (m : Nat) :
    ∀ (ps cur : List (List Char)) (curLen : Nat),
      curLen = (cur.map List.length).sum →
      (cur ≠ [] → cur.length = 1 ∨ curLen ≤ m) →
      ∀ g ∈ chunkGroupsGo m cur curLen ps,
        g ≠ [] ∧ (g.length = 1 ∨ (g.map List.length).sum ≤ m) := by
  intro ps
  induction ps with
  | nil =>
    intro cur curLen hlen hinv g hg
    simp only [chunkGroupsGo] at hg
    by_cases hc : cur.isEmpty
    · simp [hc] at hg
    · simp only [hc, Bool.false_eq_true, if_neg, if_false, List.mem_singleton] at hg
      subst hg
      have hcne : cur ≠ [] := by simpa [List.isEmpty_iff] using hc
      refine ⟨by simpa using hcne, ?_⟩
      rcases hinv hcne with h1 | h2
      · exact Or.inl (by simpa using h1)
      · refine Or.inr ?_
        rw [List.map_reverse, List.sum_reverse]
        omega
  | cons p t ih =>
    intro cur curLen hlen hinv g hg
    simp only [chunkGroupsGo] at hg
    by_cases hcond : (decide (m < curLen + p.length) && !cur.isEmpty) = true
    · rw [if_pos hcond] at hg
      have hparts : m < curLen + p.length ∧ cur.isEmpty = false := by
        simpa [Bool.and_eq_true, Bool.not_eq_true'] using hcond
      rcases List.mem_cons.mp hg with hg | hg
      · subst hg
        have hcne : cur ≠ [] := by
          intro he
          rw [he] at hparts
          simp at hparts
        refine ⟨by simpa using hcne, ?_⟩
        rcases hinv hcne with h1 | h2
        · exact Or.inl (by simpa using h1)
        · refine Or.inr ?_
          rw [List.map_reverse, List.sum_reverse]
          omega
      · exact ih [p] p.length (by simp) (fun _ => Or.inl rfl) g hg
    · rw [if_neg hcond] at hg
      refine ih (p :: cur) (curLen + p.length) (by simp [hlen]; omega) ?_ g hg
      intro _
      by_cases hce : cur = []
      · subst hce
        exact Or.inl (by simp)
      · refine Or.inr ?_
        by_cases h1 : m < curLen + p.length
        · exfalso
          have h2 : cur.isEmpty = false := by
            cases he : cur.isEmpty
            · rfl
            · exact absurd (List.isEmpty_iff.mp he) hce
          exact hcond (by simp [h1, h2])
        · omega

/-- C5 counterexample: the chunk `"abc\ncd"` produced for the text
`"abc\n\ncd"` with budget 5 has length 6 > 5 yet is not a single oversized
paragraph — the `"\n"` join characters are not counted against the budget. -/
theorem C5_counterexample :
    ¬ ∀ (text : List Char) (m : Nat), ∀ c ∈ chunk_paragraphs text m,
        c.length ≤ m ∨ (c ∈ paragraphsOf text ∧ m < c.length) := fun h =>
  absurd (h "abc\n\ncd".toList 5 "abc\ncd".toList (by decide)) (by decide)

/-- C5 amended: chunks are `"\n"`-joins of nonempty groups of consecutive
paragraphs in original order; each group is either a single (possibly
oversized, never truncated) paragraph or has total paragraph length at most
`max_chars`, so a chunk may exceed the budget only by its `group size - 1`
uncounted join characters. -/
theorem C5_chunk_budget (text : List Char) (m : Nat) :
    (chunkGroups text m).flatten = paragraphsOf text ∧
    chunk_paragraphs text m = (chunkGroups text m).map (List.intercalate ['\n']) ∧
    ∀ g ∈ chunkGroups text m, g ≠ [] ∧
      (g.length = 1 ∨ ((g.map List.length).sum ≤ m ∧
        (List.intercalate ['\n'] g).length ≤ m + (g.length - 1))) := by
  refine ⟨?_, rfl, ?_⟩
  · unfold chunkGroups
    rw [chunkGroupsGo_flatten]
    simp
  · intro g hg
    obtain ⟨hne, hd⟩ := chunkGroupsGo_inv m (paragraphsOf text) [] 0 (by simp)
      (fun h => absurd rfl h) g hg
    refine ⟨hne, ?_⟩
    rcases hd with h1 | h2
    · exact Or.inl h1
    · refine Or.inr ⟨h2, ?_⟩
      rw [intercalate_single_length '\n' g hne]
      omega

/-- Witness for the amended C5 at the concrete text `"abc\n\ncd"`, budget 5:
the single chunk group is `["abc", "cd"]`. -/
theorem C5_witness :
    (["abc".toList, "cd".toList] ∈ chunkGroups "abc\n\ncd".toList 5) ∧
    ((["abc".toList, "cd".toList] : List (List Char)) ≠ [] ∧
      (((["abc".toList, "cd".toList] : List (List Char)).length = 1) ∨
        (((["abc".toList, "cd".toList] : List (List Char)).map List.length).sum ≤ 5 ∧
          (List.intercalate ['\n'] ["abc".toList, "cd".toList]).length ≤
            5 + ((["abc".toList, "cd".toList] : List (List Char)).length - 1)))) :=
  ⟨by decide,
    (C5_chunk_budget "abc\n\ncd".toList 5).2.2 ["abc".toList, "cd".toList] (by decide)⟩

theorem concatWavGo_cons_cons (ch sw fr : Nat) (pause : ℚ) (f g : WavData)
    (u : List WavData) :
    concatWavGo ch sw fr pause (f :: g :: u) =
      if f.channels = ch ∧ f.sampwidth = sw ∧ f.framerate = fr then
        (concatWavGo ch sw fr pause (g :: u)).map fun tail =>
          f.frames ++ (if 0 < pause then write_silence pause fr else []) ++ tail
      else .error "AssertionError".toList := rfl

theorem concatWavGo_single (ch sw fr : Nat) (pause : ℚ) (f : WavData) :
    concatWavGo ch sw fr pause [f] =
      if f.channels = ch ∧ f.sampwidth = sw ∧ f.framerate = fr then
        .ok f.frames
      else .error "AssertionError".toList := rfl

theorem concatWavGo_length (ch sw fr : Nat) (pause : ℚ) :
    ∀ (files : List WavData),
      (∀ f ∈ files, f.channels = ch ∧ f.sampwidth = sw ∧ f.framerate = fr) →
      ∃ out, concatWavGo ch sw fr pause files = .ok out ∧
        out.length = (files.map (·.frames.length)).sum +
          (files.length - 1) *
            (if 0 < pause then (write_silence pause fr).length else 0) := by
  intro files
  induction files with
  | nil => intro _; exact ⟨[], rfl, by simp⟩
  | cons f rest ih =>
    intro hfmt
    have hf := hfmt f (by simp)
    cases rest with
    | nil =>
      refine ⟨f.frames, ?_, by simp⟩
      rw [concatWavGo_single, if_pos hf]
    | cons g u =>
      obtain ⟨tail, htail, hlen⟩ := ih (fun x hx => hfmt x (by simp [hx]))
      refine ⟨f.frames ++ (if 0 < pause then write_silence pause fr else []) ++ tail,
        ?_, ?_⟩
      · rw [concatWavGo_cons_cons, if_pos hf, htail]
        rfl
      · simp only [List.length_append, hlen, List.map_cons, List.sum_cons,
          List.length_cons, Nat.add_sub_cancel]
        rw [apply_ite List.length, List.length_nil, Nat.add_mul, Nat.one_mul]
        omega

/-- C2 amended: for a non-empty list of chunks whose headers all match the
first chunk's, assembly succeeds and the output PCM byte length is the sum
of the chunk byte lengths plus, between consecutive chunks only (never after
the last) and only when `pause_between > 0`, the `write_silence` bytes —
`2 * int(pause * frame_rate)` zero bytes per gap, written as 16-bit mono
samples whatever the established channel count and sample width are. -/
theorem C2_byte_accounting (f0 : WavData) (fs : List WavData) (pause : ℚ)
    (hfmt : ∀ f ∈ f0 :: fs, f.channels = f0.channels ∧
      f.sampwidth = f0.sampwidth ∧ f.framerate = f0.framerate) :
    ∃ out, concatenate_wav_files (f0 :: fs) pause = .ok out ∧
      out.length = ((f0 :: fs).map (·.frames.length)).sum +
        fs.length *
          (if 0 < pause then
            2 * ((pause * (f0.framerate : ℚ)).floor.toNat) else 0) := by
  obtain ⟨out, hout, hlen⟩ :=
    concatWavGo_length f0.channels f0.sampwidth f0.framerate pause (f0 :: fs) hfmt
  refine ⟨out, hout, ?_⟩
  rw [hlen]
  congr 1
  simp only [List.length_cons, Nat.add_sub_cancel]
  by_cases hp : 0 < pause
  · simp only [if_pos hp]
    congr 1
    unfold write_silence
    rw [if_neg (by exact not_le.mpr hp)]
    simp
  · simp [if_neg hp]

/-- Witness for the amended C2 on two mono 16-bit chunks at 1 Hz with a
one-second pause. -/
theorem C2_witness :
    (∀ f ∈ [(⟨1, 2, 1, [5, 6]⟩ : WavData), ⟨1, 2, 1, [7]⟩],
      f.channels = (⟨1, 2, 1, [5, 6]⟩ : WavData).channels ∧
      f.sampwidth = (⟨1, 2, 1, [5, 6]⟩ : WavData).sampwidth ∧
      f.framerate = (⟨1, 2, 1, [5, 6]⟩ : WavData).framerate) ∧
    ∃ out, concatenate_wav_files [(⟨1, 2, 1, [5, 6]⟩ : WavData), ⟨1, 2, 1, [7]⟩] 1 =
        .ok out ∧
      out.length = ([(⟨1, 2, 1, [5, 6]⟩ : WavData), ⟨1, 2, 1, [7]⟩].map
          (·.frames.length)).sum +
        [(⟨1, 2, 1, [7]⟩ : WavData)].length *
          (if (0 : ℚ) < 1 then
            2 * (((1 : ℚ) * ((⟨1, 2, 1, [5, 6]⟩ : WavData).framerate : ℚ)).floor.toNat)
          else 0) :=
  ⟨by decide, C2_byte_accounting ⟨1, 2, 1, [5, 6]⟩ [⟨1, 2, 1, [7]⟩] 1 (by decide)⟩

theorem write_silence_one_one : write_silence 1 1 = [0, 0] := by
  unfold write_silence
  rw [if_neg (by norm_num : ¬ (1 : ℚ) ≤ 0)]
  have h1 : ((1 : ℚ) * ((1 : Nat) : ℚ)) = 1 := by norm_num
  rw [h1]
  have h2 : (Rat.floor 1).toNat = 1 := by decide
  rw [h2]
  rfl

/-- C2 counterexample: for two matching 8-bit mono chunks at 1 Hz with a
one-second pause (`silence_seconds * sample_rate = 1` frame of 1 byte), the
claimed byte accounting predicts `1 + 1·(1·1·1) + 1 = 3` bytes but the code
writes two bytes of silence per gap regardless of the format, producing 4. -/
theorem C2_counterexample :
    ¬ ∀ (f0 : WavData) (fs : List WavData) (pause : ℚ) (k : Nat)
        (out : List Nat),
        (∀ f ∈ f0 :: fs, f.channels = f0.channels ∧
          f.sampwidth = f0.sampwidth ∧ f.framerate = f0.framerate) →
        (pause * (f0.framerate : ℚ)) = (k : ℚ) →
        concatenate_wav_files (f0 :: fs) pause = .ok out →
        out.length = ((f0 :: fs).map (·.frames.length)).sum +
          fs.length * (k * f0.channels * f0.sampwidth) := by
  intro h
  have hconc : concatenate_wav_files
      [(⟨1, 1, 1, [7]⟩ : WavData), ⟨1, 1, 1, [9]⟩] 1 = .ok [7, 0, 0, 9] := by
    show concatWavGo 1 1 1 1 [⟨1, 1, 1, [7]⟩, ⟨1, 1, 1, [9]⟩] = .ok [7, 0, 0, 9]
    simp [concatWavGo_cons_cons, concatWavGo_single, write_silence_one_one,
      Except.map]
  have := h ⟨1, 1, 1, [7]⟩ [⟨1, 1, 1, [9]⟩] 1 1 [7, 0, 0, 9]
    (by decide) (by norm_num) hconc
  simp at this

theorem trimGo_zero (b : Bool) (s : List Char) : trimGo 0 b s = [] := rfl

theorem trimGo_nil (f : Nat) (b : Bool) : trimGo f b [] = [] := by
  cases f <;> rfl

theorem trimGo_cons_nonspace (f : Nat) (b : Bool) (c : Char) (t : List Char)
    (hc : isPySpace c = false) :
    trimGo (f + 1) b (c :: t) = c :: trimGo f (c == '\n') t := by
  simp [trimGo, hc]

theorem trimGo_space_start (f : Nat) (c : Char) (t : List Char)
    (hc : isPySpace c = true) :
    trimGo (f + 1) true (c :: t) =
      trimGo f ((((c :: t).takeWhile isPySpace).getLastD c) == '\n')
        ((c :: t).dropWhile isPySpace) := by
  simp [trimGo, hc]

theorem trimGo_space_end (f : Nat) (c : Char) (t : List Char)
    (hc : isPySpace c = true) (hre : (c :: t).dropWhile isPySpace = []) :
    trimGo (f + 1) false (c :: t) = [] := by
  simp [trimGo, hc, hre]

theorem trimGo_space_jump (f : Nat) (c : Char) (t : List Char)
    (hc : isPySpace c = true) (hre : (c :: t).dropWhile isPySpace ≠ [])
    (e p : Char) (b' : List Char)
    (hd : ((c :: t).takeWhile isPySpace).reverse.dropWhile
        (fun x => !(x == '\n')) = e :: p :: b') :
    trimGo (f + 1) false (c :: t) =
      trimGo f (p == '\n')
        ('\n' :: (((c :: t).takeWhile isPySpace).reverse.takeWhile
            (fun x => !(x == '\n'))).reverse ++ (c :: t).dropWhile isPySpace) := by
  have hre' : ((c :: t).dropWhile isPySpace).isEmpty = false := by
    simpa [List.isEmpty_iff] using hre
  rw [trimGo.eq_3, if_pos hc]
  simp only [Bool.false_eq_true, if_false, hre']
  rw [hd]

theorem trimGo_space_emit (f : Nat) (c : Char) (t : List Char)
    (hc : isPySpace c = true) (hre : (c :: t).dropWhile isPySpace ≠ [])
    (hd : ∀ e p b', ((c :: t).takeWhile isPySpace).reverse.dropWhile
        (fun x => !(x == '\n')) ≠ e :: p :: b') :
    trimGo (f + 1) false (c :: t) = c :: trimGo f (c == '\n') t := by
  have hre' : ((c :: t).dropWhile isPySpace).isEmpty = false := by
    simpa [List.isEmpty_iff] using hre
  cases hcase : ((c :: t).takeWhile isPySpace).reverse.dropWhile
      (fun x => !(x == '\n')) with
  | nil =>
    rw [trimGo.eq_3, if_pos hc]
    simp only [Bool.false_eq_true, if_false, hre']
  | cons e rest2 =>
    cases rest2 with
    | nil =>
      rw [trimGo.eq_3, if_pos hc]
      simp only [Bool.false_eq_true, if_false, hre']
    | cons p b' => exact absurd hcase (hd e p b')

theorem dropWhile_head_false {α : Type} (p : α → Bool) :
    ∀ (l : List α) (a : α) (t : List α), l.dropWhile p = a :: t → p a = false := by
  intro l
  induction l with
  | nil => intro a t h; simp at h
  | cons x xs ih =>
    intro a t h
    by_cases hx : p x
    · rw [List.dropWhile_cons_of_pos hx] at h
      exact ih a t h
    · rw [List.dropWhile_cons_of_neg hx] at h
      injection h with h1 _
      subst h1
      simpa using hx

/-- Structure of the whitespace run around the match of the second regex
alternative: the scanner's resume point splits the original string as
`deleted-prefix ++ (newline :: kept-tail-of-run ++ rest)`. -/
theorem trim_run_decomp (c : Char) (t : List Char) (hc : isPySpace c = true)
    (e p : Char) (b' : List Char)
    (hd : ((c :: t).takeWhile isPySpace).reverse.dropWhile
        (fun x => !(x == '\n')) = e :: p :: b') :
    e = '\n' ∧
    (c :: t) = (b'.reverse ++ [p]) ++
      ('\n' :: (((c :: t).takeWhile isPySpace).reverse.takeWhile
          (fun x => !(x == '\n'))).reverse ++ (c :: t).dropWhile isPySpace) ∧
    isPySpace p = true ∧
    (∀ x ∈ ((c :: t).takeWhile isPySpace).reverse.takeWhile
        (fun x => !(x == '\n')), isPySpace x = true ∧ (x == '\n') = false) := by
  have he : e = '\n' := by
    have := dropWhile_head_false (fun x => !(x == '\n')) _ _ _ hd
    simpa using this
  subst he
  set R := (c :: t).takeWhile isPySpace with hR
  set A := R.reverse.takeWhile (fun x => !(x == '\n')) with hA
  set D := (c :: t).dropWhile isPySpace with hD
  have hsplit : A ++ ('\n' :: p :: b') = R.reverse := by
    rw [hA, ← hd]
    exact List.takeWhile_append_dropWhile _ _
  have hrun : R = (b'.reverse ++ [p]) ++ ('\n' :: A.reverse) := by
    have h2 := congrArg List.reverse hsplit
    rw [List.reverse_reverse, List.reverse_append] at h2
    rw [← h2]
    simp
  have hmemA : ∀ x ∈ A, isPySpace x = true ∧ (x == '\n') = false := by
    intro x hx
    have hx1 : x ∈ R.reverse := (List.takeWhile_sublist _).subset (hA ▸ hx)
    have hx2 : x ∈ R := List.mem_reverse.mp hx1
    refine ⟨List.mem_takeWhile_imp (hR ▸ hx2), ?_⟩
    have := List.mem_takeWhile_imp (hA ▸ hx)
    simpa using this
  refine ⟨rfl, ?_, ?_, hmemA⟩
  · have h3 : (c :: t) = R ++ D := by
      rw [hR, hD]
      exact (List.takeWhile_append_dropWhile _ _).symm
    rw [h3, hrun]
    simp
  · have hp : p ∈ R := by
      rw [hrun]
      simp
    exact List.mem_takeWhile_imp (hR ▸ hp)

theorem trim_jump_length (c : Char) (t : List Char) (hc : isPySpace c = true)
    (e p : Char) (b' : List Char)
    (hd : ((c :: t).takeWhile isPySpace).reverse.dropWhile
        (fun x => !(x == '\n')) = e :: p :: b') :
    ('\n' :: (((c :: t).takeWhile isPySpace).reverse.takeWhile
        (fun x => !(x == '\n'))).reverse ++ (c :: t).dropWhile isPySpace).length ≤
      t.length := by
  obtain ⟨-, heq, -, -⟩ := trim_run_decomp c t hc e p b' hd
  have := congrArg List.length heq
  simp only [List.length_cons, List.length_append, List.length_reverse,
    List.length_singleton] at this ⊢
  omega

theorem trimGo_mem :
    ∀ (f : Nat) (b : Bool) (s : List Char), s.length ≤ f →
      ∀ x ∈ trimGo f b s, x ∈ s := by
  intro f
  induction f with
  | zero =>
    intro b s _ x hx
    rw [trimGo_zero] at hx
    simp at hx
  | succ f ih =>
    intro b s hlen x hx
    match s with
    | [] => rw [trimGo_nil] at hx; simp at hx
    | c :: t =>
      have hlen' : t.length ≤ f := by
        simpa using hlen
      by_cases hc : isPySpace c
      case neg =>
        rw [trimGo_cons_nonspace f b c t (by simpa using hc)] at hx
        rcases List.mem_cons.mp hx with h | h
        · simp [h]
        · exact List.mem_cons_of_mem c (ih _ t hlen' x h)
      case pos =>
        cases b with
        | true =>
          rw [trimGo_space_start f c t hc] at hx
          have hlend : ((c :: t).dropWhile isPySpace).length ≤ f := by
            rw [List.dropWhile_cons_of_pos hc]
            exact le_trans (List.dropWhile_sublist _).length_le hlen'
          have hx2 := ih _ _ hlend x hx
          exact (List.dropWhile_sublist _).subset hx2
        | false =>
          by_cases hre : (c :: t).dropWhile isPySpace = []
          · rw [trimGo_space_end f c t hc hre] at hx
            simp at hx
          · cases hdcase : ((c :: t).takeWhile isPySpace).reverse.dropWhile
                (fun x => !(x == '\n')) with
            | nil =>
              rw [trimGo_space_emit f c t hc hre
                (by intro e p b' h; rw [hdcase] at h; exact absurd h (by simp))] at hx
              rcases List.mem_cons.mp hx with h | h
              · simp [h]
              · exact List.mem_cons_of_mem c (ih _ t hlen' x h)
            | cons e rest2 =>
              cases rest2 with
              | nil =>
                rw [trimGo_space_emit f c t hc hre
                  (by intro e' p' b'' h; rw [hdcase] at h
                      exact absurd h (by simp))] at hx
                rcases List.mem_cons.mp hx with h | h
                · simp [h]
                · exact List.mem_cons_of_mem c (ih _ t hlen' x h)
              | cons p b' =>
                rw [trimGo_space_jump f c t hc hre e p b' hdcase] at hx
                have hlenj := trim_jump_length c t hc e p b' hdcase
                have hx2 := ih _ _ (le_trans hlenj hlen') x hx
                obtain ⟨-, heq, -, -⟩ := trim_run_decomp c t hc e p b' hdcase
                rw [heq]
                exact List.mem_append_right _ hx2

theorem filter_not_dropWhile {α : Type} (q : α → Bool) :
    ∀ (l : List α), (l.dropWhile q).filter (fun c => !q c) =
      l.filter (fun c => !q c) := by
  intro l
  induction l with
  | nil => rfl
  | cons c t ih =>
    by_cases hc : q c
    · rw [List.dropWhile_cons_of_pos hc, ih, List.filter_cons_of_neg (by simpa using hc)]
    · rw [List.dropWhile_cons_of_neg hc]

theorem trim_run_tail_space (c : Char) (t : List Char) (e p : Char)
    (b' : List Char)
    (hd : ((c :: t).takeWhile isPySpace).reverse.dropWhile
        (fun x => !(x == '\n')) = e :: p :: b') :
    ∀ x ∈ b', isPySpace x = true := by
  intro x hx
  have h1 : x ∈ ((c :: t).takeWhile isPySpace).reverse.dropWhile
      (fun x => !(x == '\n')) := by
    rw [hd]
    simp [hx]
  have h2 := (List.dropWhile_sublist _).subset h1
  exact List.mem_takeWhile_imp (List.mem_reverse.mp h2)

theorem trimGo_filter :
    ∀ (f : Nat) (b : Bool) (s : List Char), s.length ≤ f →
      (trimGo f b s).filter (fun c => !isPySpace c) =
        s.filter (fun c => !isPySpace c) := by
  intro f
  induction f with
  | zero =>
    intro b s hlen
    match s, hlen with
    | [], _ => rfl
  | succ f ih =>
    intro b s hlen
    match s with
    | [] => rw [trimGo_nil]
    | c :: t =>
      have hlen' : t.length ≤ f := by simpa using hlen
      by_cases hc : isPySpace c
      case neg =>
        have hc' : isPySpace c = false := by simpa using hc
        rw [trimGo_cons_nonspace f b c t hc',
          List.filter_cons_of_pos (by simp [hc']),
          List.filter_cons_of_pos (by simp [hc']), ih _ t hlen']
      case pos =>
        cases b with
        | true =>
          rw [trimGo_space_start f c t hc]
          have hlend : ((c :: t).dropWhile isPySpace).length ≤ f := by
            rw [List.dropWhile_cons_of_pos hc]
            exact le_trans (List.dropWhile_sublist _).length_le hlen'
          rw [ih _ _ hlend]
          exact filter_not_dropWhile isPySpace (c :: t)
        | false =>
          by_cases hre : (c :: t).dropWhile isPySpace = []
          · rw [trimGo_space_end f c t hc hre]
            rw [← filter_not_dropWhile isPySpace (c :: t), hre]
          · cases hdcase : ((c :: t).takeWhile isPySpace).reverse.dropWhile
                (fun x => !(x == '\n')) with
            | nil =>
              rw [trimGo_space_emit f c t hc hre
                (by intro e' p' b'' h; rw [hdcase] at h; exact absurd h (by simp)),
                List.filter_cons_of_neg (by simpa using hc),
                List.filter_cons_of_neg (by simpa using hc)]
              exact ih _ t hlen'
            | cons e rest2 =>
              cases rest2 with
              | nil =>
                rw [trimGo_space_emit f c t hc hre
                  (by intro e' p' b'' h; rw [hdcase] at h; exact absurd h (by simp)),
                  List.filter_cons_of_neg (by simpa using hc),
                  List.filter_cons_of_neg (by simpa using hc)]
                exact ih _ t hlen'
              | cons p b' =>
                rw [trimGo_space_jump f c t hc hre e p b' hdcase]
                have hlenj := trim_jump_length c t hc e p b' hdcase
                rw [ih _ _ (le_trans hlenj hlen')]
                obtain ⟨-, heq, hpsp, -⟩ := trim_run_decomp c t hc e p b' hdcase
                have hpre : (b'.reverse ++ [p]).filter (fun c => !isPySpace c) = [] := by
                  rw [List.filter_eq_nil_iff]
                  intro x hx
                  rcases List.mem_append.mp hx with h | h
                  · have := trim_run_tail_space c t e p b' hdcase x (List.mem_reverse.mp h)
                    simp [this]
                  · simp at h
                    subst h
                    simp [hpsp]
                conv_rhs => rw [heq, List.filter_append, hpre]
                rw [List.nil_append]

/-- With the line-start flag set, the first character the scanner emits is
never whitespace (the first alternative deletes leading runs). -/
theorem trimGo_head_true :
    ∀ (f : Nat) (s : List Char) (h : Char),
      (trimGo f true s).head? = some h → isPySpace h = false := by
  intro f
  induction f with
  | zero => intro s h hx; rw [trimGo_zero] at hx; simp at hx
  | succ f ih =>
    intro s h hx
    match s with
    | [] => rw [trimGo_nil] at hx; simp at hx
    | c :: t =>
      by_cases hc : isPySpace c
      case neg =>
        rw [trimGo_cons_nonspace f true c t (by simpa using hc)] at hx
        simp only [List.head?_cons, Option.some.injEq] at hx
        subst hx
        simpa using hc
      case pos =>
        rw [trimGo_space_start f c t hc] at hx
        cases hD : (c :: t).dropWhile isPySpace with
        | nil => rw [hD, trimGo_nil] at hx; simp at hx
        | cons d u =>
          have hd' : isPySpace d = false := dropWhile_head_false _ _ _ _ hD
          cases f with
          | zero => rw [trimGo_zero] at hx; simp at hx
          | succ f2 =>
            rw [hD, trimGo_cons_nonspace f2 _ d u hd'] at hx
            simp only [List.head?_cons, Option.some.injEq] at hx
            subst hx
            exact hd'

/-- If the whitespace run beginning a position contains no newline past its
first character, the scanner either deletes to the end of the string or
emits the current character: it cannot jump. -/
theorem trimGo_head_false_nonl (f : Nat) (d0 : Char) (u : List Char)
    (hsp : isPySpace d0 = true) (hnl : '\n' ∉ u.takeWhile isPySpace) :
    trimGo (f + 1) false (d0 :: u) = [] ∨
      trimGo (f + 1) false (d0 :: u) = d0 :: trimGo f (d0 == '\n') u := by
  by_cases hre : (d0 :: u).dropWhile isPySpace = []
  · exact Or.inl (trimGo_space_end f d0 u hsp hre)
  · refine Or.inr (trimGo_space_emit f d0 u hsp hre ?_)
    intro e p b' hcontra
    have hrun : (d0 :: u).takeWhile isPySpace = d0 :: u.takeWhile isPySpace :=
      List.takeWhile_cons_of_pos hsp
    have hpre : ∀ x ∈ (u.takeWhile isPySpace).reverse, (fun x => !(x == '\n')) x = true := by
      intro x hx
      have : x ≠ '\n' := fun he => hnl (he ▸ List.mem_reverse.mp hx)
      simpa using this
    rw [hrun] at hcontra
    have : (d0 :: u.takeWhile isPySpace).reverse =
        (u.takeWhile isPySpace).reverse ++ [d0] := by simp
    rw [this, List.dropWhile_append_of_pos hpre] at hcontra
    by_cases hd0 : d0 = '\n'
    · rw [List.dropWhile_cons_of_neg (by simp [hd0])] at hcontra
      simp at hcontra
    · rw [List.dropWhile_cons_of_pos (by simpa using hd0)] at hcontra
      simp at hcontra

/-- If the scanner cannot jump at a space position (no second-alternative
backtrack point), the run past the head contains no newline. -/
theorem trim_short_no_nl (c : Char) (t : List Char) (hc : isPySpace c = true)
    (hd : ∀ e p b', ((c :: t).takeWhile isPySpace).reverse.dropWhile
        (fun x => !(x == '\n')) ≠ e :: p :: b') :
    '\n' ∉ t.takeWhile isPySpace := by
  intro hmem
  have h1 : (t.takeWhile isPySpace).reverse.dropWhile (fun x => !(x == '\n')) ≠ [] := by
    intro he
    have := List.dropWhile_eq_nil_iff.mp he '\n' (List.mem_reverse.mpr hmem)
    simp at this
  obtain ⟨w0, w', hw⟩ := List.exists_cons_of_ne_nil h1
  have hrev : ((c :: t).takeWhile isPySpace).reverse =
      (t.takeWhile isPySpace).reverse ++ [c] := by
    rw [List.takeWhile_cons_of_pos hc]
    simp
  have hfull : ((c :: t).takeWhile isPySpace).reverse.dropWhile
      (fun x => !(x == '\n')) = (w0 :: w') ++ [c] := by
    rw [hrev, List.dropWhile_append, hw]
    simp
  cases w' with
  | nil => exact hd w0 c [] (by simpa using hfull)
  | cons p b'' => exact hd w0 p (b'' ++ [c]) (by simpa using hfull)

theorem chain'_of_suffix {R : Char → Char → Prop} {l₁ l₂ : List Char}
    (hs : l₂ <:+ l₁) (hch : List.Chain' R l₁) : List.Chain' R l₂ := by
  obtain ⟨pre, rfl⟩ := hs
  exact (List.chain'_append.mp hch).2.1

/-- The character pairs that never sit next to each other in the output of
the multiline trim (given an input without adjacent plain blanks): no
whitespace directly before a newline, no whitespace directly after one, and
no two plain spaces. -/
def cleanAdj (a b : Char) : Prop :=
  ¬(isPySpace a = true ∧ b = '\n') ∧ ¬(a = '\n' ∧ isPySpace b = true) ∧
    ¬(a = ' ' ∧ b = ' ')

/-- The only whitespace adjacency produced by `collapseSpaces`:
no two plain spaces in a row. -/
def noTwoBlank (a b : Char) : Prop := ¬(a = ' ' ∧ b = ' ')

theorem trimGo_good :
    ∀ (f : Nat) (flag : Bool) (s : List Char), s.length ≤ f →
      List.Chain' noTwoBlank s →
      List.Chain' cleanAdj (trimGo f flag s) ∧
      (∀ z, (trimGo f flag s).getLast? = some z → isPySpace z = false) := by
  intro f
  induction f with
  | zero =>
    intro flag s _ _
    rw [trimGo_zero]
    exact ⟨List.chain'_nil, by simp⟩
  | succ f ih =>
    intro flag s hlen hch
    match s with
    | [] => rw [trimGo_nil]; exact ⟨List.chain'_nil, by simp⟩
    | c :: t =>
      have hlen' : t.length ≤ f := by simpa using hlen
      have hcht : List.Chain' noTwoBlank t := hch.tail
      by_cases hc : isPySpace c
      case neg =>
        have hc' : isPySpace c = false := by simpa using hc
        rw [trimGo_cons_nonspace f flag c t hc']
        obtain ⟨ihc, ihl⟩ := ih (c == '\n') t hlen' hcht
        constructor
        · rw [List.chain'_cons']
          refine ⟨?_, ihc⟩
          intro y _
          refine ⟨?_, ?_, ?_⟩
          · rintro ⟨h1, -⟩
            rw [hc'] at h1
            exact absurd h1 (by simp)
          · rintro ⟨h1, -⟩
            subst h1
            exact absurd hc' (by decide)
          · rintro ⟨h1, -⟩
            subst h1
            exact absurd hc' (by decide)
        · intro z hz
          cases ho : trimGo f (c == '\n') t with
          | nil =>
            rw [ho] at hz
            simp only [List.getLast?_singleton, Option.some.injEq] at hz
            subst hz
            exact hc'
          | cons o0 os =>
            rw [ho, List.getLast?_cons_cons] at hz
            exact ihl z (by rw [ho]; exact hz)
      case pos =>
        cases flag with
        | true =>
          rw [trimGo_space_start f c t hc]
          have hlenD : ((c :: t).dropWhile isPySpace).length ≤ f := by
            rw [List.dropWhile_cons_of_pos hc]
            exact le_trans (List.dropWhile_sublist _).length_le hlen'
          exact ih _ _ hlenD (chain'_of_suffix (List.dropWhile_suffix _) hch)
        | false =>
          by_cases hre : (c :: t).dropWhile isPySpace = []
          · rw [trimGo_space_end f c t hc hre]
            exact ⟨List.chain'_nil, by simp⟩
          · by_cases hjump : ∃ e p b',
                ((c :: t).takeWhile isPySpace).reverse.dropWhile
                  (fun x => !(x == '\n')) = e :: p :: b'
            · obtain ⟨e, p, b', hdcase⟩ := hjump
              rw [trimGo_space_jump f c t hc hre e p b' hdcase]
              have hlenj := trim_jump_length c t hc e p b' hdcase
              obtain ⟨-, heq, -, -⟩ := trim_run_decomp c t hc e p b' hdcase
              refine ih _ _ (le_trans hlenj hlen') ?_
              exact chain'_of_suffix ⟨_, heq.symm⟩ hch
            · push_neg at hjump
              rw [trimGo_space_emit f c t hc hre hjump]
              obtain ⟨ihc, ihl⟩ := ih (c == '\n') t hlen' hcht
              have hDt : (c :: t).dropWhile isPySpace = t.dropWhile isPySpace :=
                List.dropWhile_cons_of_pos hc
              have hret : t.dropWhile isPySpace ≠ [] := by rw [← hDt]; exact hre
              obtain ⟨d0, u0, hDu⟩ := List.exists_cons_of_ne_nil hret
              have hd0ns : isPySpace d0 = false := dropWhile_head_false _ _ _ _ hDu
              have hone : trimGo f (c == '\n') t ≠ [] := by
                intro he
                have hfil := trimGo_filter f (c == '\n') t hlen'
                rw [he] at hfil
                have hne : t.filter (fun c => !isPySpace c) ≠ [] := by
                  rw [← filter_not_dropWhile isPySpace t, hDu,
                    List.filter_cons_of_pos (by simp [hd0ns])]
                  simp
                exact hne hfil.symm
              constructor
              · rw [List.chain'_cons']
                refine ⟨?_, ihc⟩
                intro y hy
                by_cases hcn : c = '\n'
                · subst hcn
                  have hbeq : ('\n' == '\n') = true := by decide
                  rw [hbeq] at hy
                  have hyn : isPySpace y = false :=
                    trimGo_head_true f t y (by simpa using hy)
                  refine ⟨?_, ?_, ?_⟩
                  · rintro ⟨-, h2⟩
                    subst h2
                    exact absurd hyn (by decide)
                  · rintro ⟨-, h2⟩
                    rw [hyn] at h2
                    exact absurd h2 (by simp)
                  · rintro ⟨h1, -⟩
                    exact absurd h1 (by decide)
                · have hnl : '\n' ∉ t.takeWhile isPySpace :=
                    trim_short_no_nl c t hc hjump
                  have hflag : (c == '\n') = false := by simpa using hcn
                  rw [hflag] at hy
                  cases t with
                  | nil => rw [trimGo_nil] at hy; simp at hy
                  | cons d1 u1 =>
                    have hpair : noTwoBlank c d1 := (List.chain'_cons.mp hch).1
                    by_cases hd1 : isPySpace d1
                    case neg =>
                      have hd1' : isPySpace d1 = false := by simpa using hd1
                      cases f with
                      | zero => simp at hlen'
                      | succ f2 =>
                        rw [trimGo_cons_nonspace f2 false d1 u1 hd1'] at hy
                        simp only [List.head?_cons, Option.mem_def,
                          Option.some.injEq] at hy
                        subst hy
                        refine ⟨?_, ?_, ?_⟩
                        · rintro ⟨-, h2⟩
                          rw [h2] at hd1'
                          exact absurd hd1' (by decide)
                        · rintro ⟨h1, -⟩
                          exact absurd h1 hcn
                        · exact hpair
                    case pos =>
                      have hd1' : isPySpace d1 = true := by simpa using hd1
                      have hnl2 : '\n' ∉ u1.takeWhile isPySpace := by
                        intro hm
                        exact hnl (by
                          rw [List.takeWhile_cons_of_pos hd1']
                          exact List.mem_cons_of_mem d1 hm)
                      have hd1nl : d1 ≠ '\n' := by
                        intro he
                        exact hnl (by
                          rw [List.takeWhile_cons_of_pos hd1']
                          simp [he])
                      cases f with
                      | zero => simp at hlen'
                      | succ f2 =>
                        rcases trimGo_head_false_nonl f2 d1 u1 hd1' hnl2 with h | h
                        · rw [h] at hy
                          simp at hy
                        · rw [h] at hy
                          simp only [List.head?_cons, Option.mem_def,
                            Option.some.injEq] at hy
                          subst hy
                          refine ⟨?_, ?_, ?_⟩
                          · rintro ⟨-, h2⟩
                            exact hd1nl h2
                          · rintro ⟨h1, -⟩
                            exact hcn h1
                          · exact hpair
              · intro z hz
                obtain ⟨o0, os, ho⟩ := List.exists_cons_of_ne_nil hone
                rw [ho, List.getLast?_cons_cons] at hz
                exact ihl z (by rw [ho]; exact hz)

/-- On a string whose adjacent pairs satisfy `cleanAdj`, a whitespace run
never contains a newline with further whitespace before it, so the scanner
at a non-start space position always emits rather than jumps. -/
theorem clean_scrutinee_short (c : Char) (t : List Char)
    (hch : List.Chain' cleanAdj (c :: t)) :
    ∀ e p b', ((c :: t).takeWhile isPySpace).reverse.dropWhile
        (fun x => !(x == '\n')) ≠ e :: p :: b' := by
  intro e p b' hd
  have hsuf : e :: p :: b' <:+ ((c :: t).takeWhile isPySpace).reverse :=
    hd ▸ List.dropWhile_suffix _
  obtain ⟨pre, hpre⟩ := hsuf
  have hrun : (c :: t).takeWhile isPySpace = b'.reverse ++ [p, e] ++ pre.reverse := by
    have h2 := congrArg List.reverse hpre
    rw [List.reverse_reverse] at h2
    rw [← h2]
    simp
  have he : e = '\n' := by
    have := dropWhile_head_false (fun x => !(x == '\n')) _ e (p :: b') hd
    simpa using this
  have hp : isPySpace p = true :=
    List.mem_takeWhile_imp (l := c :: t) (by rw [hrun]; simp)
  have hinf : [p, e] <:+: (c :: t) := by
    have h1 : [p, e] <:+: (c :: t).takeWhile isPySpace :=
      ⟨b'.reverse, pre.reverse, hrun.symm⟩
    have h2 : (c :: t).takeWhile isPySpace <:+: (c :: t) :=
      List.IsPrefix.isInfix (List.takeWhile_prefix _)
    exact h1.trans h2
  have hchpe := List.Chain'.infix hch hinf
  exact (List.chain'_cons.mp hchpe).1.1 ⟨hp, he⟩

/-- The multiline trim scanner is the identity on a string with clean
whitespace adjacency whose last character is not whitespace (and, when the
scanner believes it is at a line start, whose first character is not
whitespace either). -/
theorem trimGo_id :
    ∀ (f : Nat) (flag : Bool) (s : List Char), s.length ≤ f →
      List.Chain' cleanAdj s →
      (flag = true → ∀ h, s.head? = some h → isPySpace h = false) →
      (∀ z, s.getLast? = some z → isPySpace z = false) →
      trimGo f flag s = s := by
  intro f
  induction f with
  | zero =>
    intro flag s hlen _ _ _
    have hnil : s = [] := List.eq_nil_of_length_eq_zero (Nat.le_zero.mp hlen)
    rw [hnil, trimGo_zero]
  | succ f ih =>
    intro flag s hlen hch hhead hlast
    match s with
    | [] => exact trimGo_nil _ _
    | c :: t =>
      have hlen' : t.length ≤ f := by simpa using hlen
      have hcht : List.Chain' cleanAdj t := hch.tail
      have hlast' : ∀ z, t.getLast? = some z → isPySpace z = false := by
        intro z hz
        cases t with
        | nil => simp at hz
        | cons d u => exact hlast z (by rw [List.getLast?_cons_cons]; exact hz)
      have hheadrec : ((c == '\n') : Bool) = true →
          ∀ h, t.head? = some h → isPySpace h = false := by
        intro hcn h hh
        have hc' : c = '\n' := by simpa using hcn
        subst hc'
        cases t with
        | nil => simp at hh
        | cons d u =>
          simp only [List.head?_cons, Option.some.injEq] at hh
          rw [← hh]
          have hrel : cleanAdj '\n' d := (List.chain'_cons.mp hch).1
          by_cases hsp : isPySpace d
          · exact absurd (hrel.2.1 ⟨rfl, hsp⟩) not_false
          · simpa using hsp
      by_cases hc : isPySpace c
      case neg =>
        have hc' : isPySpace c = false := by simpa using hc
        rw [trimGo_cons_nonspace f flag c t hc']
        rw [ih (c == '\n') t hlen' hcht hheadrec hlast']
      case pos =>
        cases flag with
        | true => exact absurd (hhead rfl c (by simp)) (by simpa using hc)
        | false =>
          have hre : (c :: t).dropWhile isPySpace ≠ [] := by
            intro he
            have hall := List.dropWhile_eq_nil_iff.mp he
            have hne : (c :: t) ≠ [] := by simp
            have hz : isPySpace ((c :: t).getLast hne) = false :=
              hlast _ (List.getLast?_eq_getLast _ hne)
            have hmem : isPySpace ((c :: t).getLast hne) = true :=
              hall _ (List.getLast_mem hne)
            rw [hz] at hmem
            exact absurd hmem (by simp)
          rw [trimGo_space_emit f c t hc hre (clean_scrutinee_short c t hch)]
          rw [ih (c == '\n') t hlen' hcht hheadrec hlast']

theorem csp_mem :
    ∀ (s : List Char) (b : Bool) (c : Char),
      c ∈ collapseSpacesGo b s → c ∈ s ∨ c = ' ' := by
  intro s
  induction s with
  | nil => intro b c h; simp [collapseSpacesGo] at h
  | cons d t ih =>
    intro b c h
    by_cases hd : isBlankOrTab d
    · rw [show collapseSpacesGo b (d :: t) =
          (if b then collapseSpacesGo true t
           else ' ' :: collapseSpacesGo true t) from by simp [collapseSpacesGo, hd]] at h
      cases b with
      | true =>
        rcases ih true c (by simpa using h) with hm | he
        · exact Or.inl (List.mem_cons_of_mem d hm)
        · exact Or.inr he
      | false =>
        simp only [if_false, Bool.false_eq_true, List.mem_cons] at h
        rcases h with he | hm
        · exact Or.inr he
        · rcases ih true c hm with hm' | he
          · exact Or.inl (List.mem_cons_of_mem d hm')
          · exact Or.inr he
    · have hd' : isBlankOrTab d = false := by simpa using hd
      rw [show collapseSpacesGo b (d :: t) = d :: collapseSpacesGo false t from by
        simp [collapseSpacesGo, hd']] at h
      rcases List.mem_cons.mp h with he | hm
      · exact Or.inl (he ▸ List.mem_cons_self d t)
      · rcases ih false c hm with hm' | he
        · exact Or.inl (List.mem_cons_of_mem d hm')
        · exact Or.inr he

theorem csp_no_tab :
    ∀ (s : List Char) (b : Bool), '\t' ∉ collapseSpacesGo b s := by
  intro s
  induction s with
  | nil => intro b; simp [collapseSpacesGo]
  | cons d t ih =>
    intro b h
    by_cases hd : isBlankOrTab d
    · rw [show collapseSpacesGo b (d :: t) =
          (if b then collapseSpacesGo true t
           else ' ' :: collapseSpacesGo true t) from by simp [collapseSpacesGo, hd]] at h
      cases b with
      | true => exact ih true (by simpa using h)
      | false =>
        simp only [if_false, Bool.false_eq_true, List.mem_cons] at h
        rcases h with he | hm
        · exact absurd he (by decide)
        · exact ih true hm
    · have hd' : isBlankOrTab d = false := by simpa using hd
      rw [show collapseSpacesGo b (d :: t) = d :: collapseSpacesGo false t from by
        simp [collapseSpacesGo, hd']] at h
      rcases List.mem_cons.mp h with he | hm
      · rw [← he] at hd'
        exact absurd hd' (by decide)
      · exact ih false hm

theorem cspGo_good :
    ∀ (s : List Char) (b : Bool),
      List.Chain' noTwoBlank (collapseSpacesGo b s) ∧
      (b = true → ∀ h, (collapseSpacesGo b s).head? = some h →
        isBlankOrTab h = false) := by
  intro s
  induction s with
  | nil =>
    intro b
    constructor
    · simp [collapseSpacesGo]
    · intro _ h hh; simp [collapseSpacesGo] at hh
  | cons d t ih =>
    intro b
    by_cases hd : isBlankOrTab d
    · rw [show collapseSpacesGo b (d :: t) =
          (if b then collapseSpacesGo true t
           else ' ' :: collapseSpacesGo true t) from by simp [collapseSpacesGo, hd]]
      cases b with
      | true =>
        refine ⟨(ih true).1, ?_⟩
        intro _ h hh
        exact (ih true).2 rfl h (by simpa using hh)
      | false =>
        simp only [if_false, Bool.false_eq_true]
        constructor
        · rw [List.chain'_cons']
          refine ⟨?_, (ih true).1⟩
          intro y hy
          have hyb : isBlankOrTab y = false := (ih true).2 rfl y hy
          rintro ⟨-, h2⟩
          rw [h2] at hyb
          exact absurd hyb (by decide)
        · intro hb; simp at hb
    · have hd' : isBlankOrTab d = false := by simpa using hd
      rw [show collapseSpacesGo b (d :: t) = d :: collapseSpacesGo false t from by
        simp [collapseSpacesGo, hd']]
      constructor
      · rw [List.chain'_cons']
        refine ⟨?_, (ih false).1⟩
        intro y _
        rintro ⟨h1, -⟩
        rw [h1] at hd'
        exact absurd hd' (by decide)
      · intro _ h hh
        simp only [List.head?_cons, Option.some.injEq] at hh
        rw [← hh]
        exact hd'

theorem cspGo_true_of_head (t : List Char)
    (hhd : ∀ h, t.head? = some h → isBlankOrTab h = false) :
    collapseSpacesGo true t = collapseSpacesGo false t := by
  cases t with
  | nil => rfl
  | cons d u =>
    have hd : isBlankOrTab d = false := hhd d rfl
    simp [collapseSpacesGo, hd]

theorem csp_id :
    ∀ (s : List Char), '\t' ∉ s → List.Chain' noTwoBlank s →
      collapseSpaces s = s := by
  intro s
  induction s with
  | nil => intro _ _; rfl
  | cons d t ih =>
    intro htab hch
    have htab' : '\t' ∉ t := fun h => htab (List.mem_cons_of_mem d h)
    by_cases hd : isBlankOrTab d
    · have hdsp : d = ' ' := by
        rcases (by simpa [isBlankOrTab] using hd : d = ' ' ∨ d = '\t') with h | h
        · exact h
        · exact absurd (h ▸ List.mem_cons_self d t) htab
      subst hdsp
      have hhd : ∀ h, t.head? = some h → isBlankOrTab h = false := by
        intro h hh
        cases t with
        | nil => simp at hh
        | cons e u =>
          simp only [List.head?_cons, Option.some.injEq] at hh
          rw [← hh]
          have hrel : noTwoBlank ' ' e := (List.chain'_cons.mp hch).1
          have hne : e ≠ ' ' := fun he => hrel ⟨rfl, he⟩
          have hnt : e ≠ '\t' := fun he =>
            htab' (he ▸ List.mem_cons_self e u)
          simp [isBlankOrTab, hne, hnt]
      rw [show collapseSpaces (' ' :: t) = ' ' :: collapseSpacesGo true t from by
        simp [collapseSpaces, collapseSpacesGo,
          show isBlankOrTab ' ' = true from by decide]]
      rw [cspGo_true_of_head t hhd]
      rw [show collapseSpacesGo false t = collapseSpaces t from rfl]
      rw [ih htab' hch.tail]
    · have hd' : isBlankOrTab d = false := by simpa using hd
      rw [show collapseSpaces (d :: t) = d :: collapseSpacesGo false t from by
        simp [collapseSpaces, collapseSpacesGo, hd']]
      rw [show collapseSpacesGo false t = collapseSpaces t from rfl]
      rw [ih htab' hch.tail]

theorem cnl_mem :
    ∀ (s : List Char) (k : Nat) (c : Char),
      c ∈ collapseNewlinesGo k s → c ∈ s := by
  intro s
  induction s with
  | nil => intro k c h; simp [collapseNewlinesGo] at h
  | cons d t ih =>
    intro k c h
    by_cases hd : d = '\n'
    · subst hd
      by_cases hk : k < 2
      · rw [show collapseNewlinesGo k ('\n' :: t) =
            '\n' :: collapseNewlinesGo (k + 1) t from by
          simp [collapseNewlinesGo, hk]] at h
        rcases List.mem_cons.mp h with he | hm
        · exact he ▸ List.mem_cons_self '\n' t
        · exact List.mem_cons_of_mem _ (ih (k + 1) c hm)
      · rw [show collapseNewlinesGo k ('\n' :: t) =
            collapseNewlinesGo k t from by simp [collapseNewlinesGo, hk]] at h
        exact List.mem_cons_of_mem _ (ih k c h)
    · have hd' : (d == '\n') = false := by simpa using hd
      rw [show collapseNewlinesGo k (d :: t) =
          d :: collapseNewlinesGo 0 t from by simp [collapseNewlinesGo, hd']] at h
      rcases List.mem_cons.mp h with he | hm
      · exact he ▸ List.mem_cons_self d t
      · exact List.mem_cons_of_mem _ (ih 0 c hm)

theorem cnl_head0 (t : List Char) (h : Char)
    (hh : (collapseNewlinesGo 0 t).head? = some h) :
    h = '\n' ∨ t.head? = some h := by
  cases t with
  | nil => simp [collapseNewlinesGo] at hh
  | cons d u =>
    by_cases hd : d = '\n'
    · subst hd
      rw [show collapseNewlinesGo 0 ('\n' :: u) =
          '\n' :: collapseNewlinesGo 1 u from by
        simp [collapseNewlinesGo]] at hh
      simp only [List.head?_cons, Option.some.injEq] at hh
      exact Or.inl hh.symm
    · have hd' : (d == '\n') = false := by simpa using hd
      rw [show collapseNewlinesGo 0 (d :: u) =
          d :: collapseNewlinesGo 0 u from by simp [collapseNewlinesGo, hd']] at hh
      simp only [List.head?_cons, Option.some.injEq] at hh
      exact Or.inr (by rw [← hh]; rfl)

theorem cnl_chain :
    ∀ (s : List Char), List.Chain' noTwoBlank s →
      ∀ (k : Nat), List.Chain' noTwoBlank (collapseNewlinesGo k s) := by
  intro s
  induction s with
  | nil => intro _ k; simp [collapseNewlinesGo]
  | cons d t ih =>
    intro hch k
    by_cases hd : d = '\n'
    · subst hd
      by_cases hk : k < 2
      · rw [show collapseNewlinesGo k ('\n' :: t) =
            '\n' :: collapseNewlinesGo (k + 1) t from by
          simp [collapseNewlinesGo, hk]]
        rw [List.chain'_cons']
        refine ⟨?_, ih hch.tail (k + 1)⟩
        intro y _
        rintro ⟨h1, -⟩
        exact absurd h1 (by decide)
      · rw [show collapseNewlinesGo k ('\n' :: t) =
            collapseNewlinesGo k t from by simp [collapseNewlinesGo, hk]]
        exact ih hch.tail k
    · have hd' : (d == '\n') = false := by simpa using hd
      rw [show collapseNewlinesGo k (d :: t) =
          d :: collapseNewlinesGo 0 t from by simp [collapseNewlinesGo, hd']]
      rw [List.chain'_cons']
      refine ⟨?_, ih hch.tail 0⟩
      intro y hy
      rcases cnl_head0 t y hy with he | hm
      · rintro ⟨-, h2⟩
        rw [he] at h2
        exact absurd h2 (by decide)
      · cases t with
        | nil => simp at hm
        | cons e u =>
          simp only [List.head?_cons, Option.some.injEq] at hm
          rw [← hm]
          exact (List.chain'_cons.mp hch).1

theorem cnlGo_one_of_head (t : List Char)
    (hhd : ∀ h, t.head? = some h → h ≠ '\n') :
    collapseNewlinesGo 1 t = collapseNewlinesGo 0 t := by
  cases t with
  | nil => rfl
  | cons d u =>
    have hd : (d == '\n') = false := by simpa using hhd d rfl
    simp [collapseNewlinesGo, hd]

theorem cnl_id :
    ∀ (s : List Char),
      List.Chain' (fun a b => ¬(a = '\n' ∧ b = '\n')) s →
      collapseNewlines s = s := by
  intro s
  induction s with
  | nil => intro _; rfl
  | cons d t ih =>
    intro hch
    by_cases hd : d = '\n'
    · subst hd
      rw [show collapseNewlines ('\n' :: t) =
          '\n' :: collapseNewlinesGo 1 t from by
        simp [collapseNewlines, collapseNewlinesGo]]
      have hhd : ∀ h, t.head? = some h → h ≠ '\n' := by
        intro h hh he
        cases t with
        | nil => simp at hh
        | cons e u =>
          simp only [List.head?_cons, Option.some.injEq] at hh
          exact (List.chain'_cons.mp hch).1 ⟨rfl, by rw [hh, he]⟩
      rw [cnlGo_one_of_head t hhd]
      rw [show collapseNewlinesGo 0 t = collapseNewlines t from rfl]
      rw [ih hch.tail]
    · have hd' : (d == '\n') = false := by simpa using hd
      rw [show collapseNewlines (d :: t) = d :: collapseNewlinesGo 0 t from by
        simp [collapseNewlines, collapseNewlinesGo, hd']]
      rw [show collapseNewlinesGo 0 t = collapseNewlines t from rfl]
      rw [ih hch.tail]

theorem pyStrip_within (s : List Char) : pyStrip s <:+: s := by
  have h1 : s.dropWhile isPySpace <:+ s := List.dropWhile_suffix _
  have h2 : (s.dropWhile isPySpace).reverse.dropWhile isPySpace <:+
      (s.dropWhile isPySpace).reverse := List.dropWhile_suffix _
  have h3 : ((s.dropWhile isPySpace).reverse.dropWhile isPySpace).reverse <+:
      s.dropWhile isPySpace := by
    obtain ⟨pre, hp⟩ := h2
    refine ⟨pre.reverse, ?_⟩
    have h4 := congrArg List.reverse hp
    simpa [List.reverse_append] using h4
  have h4 := List.IsPrefix.isInfix h3
  have h5 := List.IsSuffix.isInfix h1
  exact h4.trans h5

theorem pyStrip_head (s : List Char) :
    ∀ h, (pyStrip s).head? = some h → isPySpace h = false := by
  intro h hh
  rw [pyStrip, List.head?_reverse] at hh
  have hDne : (s.dropWhile isPySpace).reverse.dropWhile isPySpace ≠ [] := by
    intro he
    rw [he] at hh
    simp at hh
  obtain ⟨pre, hp⟩ := List.dropWhile_suffix
    (l := (s.dropWhile isPySpace).reverse) (p := isPySpace)
  have hlast : ((s.dropWhile isPySpace).reverse).getLast? = some h := by
    rw [← hp, List.getLast?_append_of_ne_nil _ hDne]
    exact hh
  rw [List.getLast?_reverse] at hlast
  cases hval : s.dropWhile isPySpace with
  | nil => rw [hval] at hlast; simp at hlast
  | cons a t =>
    rw [hval] at hlast
    simp only [List.head?_cons, Option.some.injEq] at hlast
    rw [← hlast]
    exact dropWhile_head_false isPySpace s a t hval

theorem pyStrip_last (s : List Char) :
    ∀ z, (pyStrip s).getLast? = some z → isPySpace z = false := by
  intro z hz
  rw [pyStrip, List.getLast?_reverse] at hz
  cases hval : (s.dropWhile isPySpace).reverse.dropWhile isPySpace with
  | nil => rw [hval] at hz; simp at hz
  | cons a t =>
    rw [hval] at hz
    simp only [List.head?_cons, Option.some.injEq] at hz
    rw [← hz]
    exact dropWhile_head_false isPySpace _ a t hval

theorem pyStrip_eq_self (s : List Char)
    (hh : ∀ h, s.head? = some h → isPySpace h = false)
    (hl : ∀ z, s.getLast? = some z → isPySpace z = false) :
    pyStrip s = s := by
  have h1 : s.dropWhile isPySpace = s := by
    cases s with
    | nil => rfl
    | cons c t =>
      rw [List.dropWhile_cons_of_neg (by simp [hh c rfl])]
  rw [pyStrip, h1]
  have h2 : s.reverse.dropWhile isPySpace = s.reverse := by
    cases hs : s.reverse with
    | nil => simp
    | cons c t =>
      have hc : s.getLast? = some c := by
        rw [← List.head?_reverse, hs]
        rfl
      rw [List.dropWhile_cons_of_neg (by simp [hl c hc])]
  rw [h2, List.reverse_reverse]

theorem applyReplacements_safe (s : List Char)
    (hs : ∀ c ∈ s, isSafeChar c = true) : applyReplacements s = s := by
  have step : ∀ (pat nw : List Char),
      ((∃ c ∈ pat, isSafeChar c = false) ∨ pat = nw) →
      pyReplace pat nw s = s := by
    rintro pat nw (⟨c, hc, hcf⟩ | rfl)
    · refine pyReplace_eq_self_of_not_mem pat nw s c hc ?_
      intro hmem
      rw [hs c hmem] at hcf
      exact absurd hcf (by simp)
    · exact pyReplace_self pat s
  show replacements.foldl (fun t pr => pyReplace pr.1 pr.2 t) s = s
  simp only [replacements, List.foldl_cons, List.foldl_nil]
  rw [step (strOfCodes [0x303]) [] (by decide)]
  rw [step (strOfCodes [0x301]) [] (by decide)]
  rw [step (strOfCodes [0x300]) [] (by decide)]
  rw [step (strOfCodes [0x302]) [] (by decide)]
  rw [step (strOfCodes [0x30c]) [] (by decide)]
  rw [step (strOfCodes [0x327]) [] (by decide)]
  rw [step (strOfCodes [0x200b]) [] (by decide)]
  rw [step (strOfCodes [0x200c]) [] (by decide)]
  rw [step (strOfCodes [0x200d]) [] (by decide)]
  rw [step (strOfCodes [0xfeff]) [] (by decide)]
  rw [step (strOfCodes [0x22]) (strOfCodes [0x22]) (Or.inr rfl)]
  rw [step (strOfCodes [58, 32, 34, 39, 34, 44, 32, 32, 32, 32, 32, 32, 35,
    32, 76, 69, 70, 84, 32, 83, 73, 78, 71, 76, 69, 32, 81, 85, 79, 84, 65,
    84, 73, 79, 78, 32, 77, 65, 82, 75, 10, 32, 32, 32, 32, 32, 32, 32, 32,
    32, 32, 32, 32]) (strOfCodes [39]) (by decide)]
  rw [step (strOfCodes [0x2014]) (strOfCodes [0x2d]) (by decide)]
  rw [step (strOfCodes [0x2013]) (strOfCodes [0x2d]) (by decide)]
  rw [step (strOfCodes [0x2026]) (strOfCodes [0x2e, 0x2e, 0x2e]) (by decide)]

/-- Structural invariants of `clean_text`'s output, whatever the Unicode
normalizer and category oracle do: every character is in the safe class, no
tab survives, whitespace adjacency is clean (no space touching a newline, no
double space), and the ends are not whitespace. -/
theorem clean_text_props (nfc : List Char → List Char) (isMn : Char → Bool)
    (x : List Char) :
    (∀ c ∈ clean_text nfc isMn x, isSafeChar c = true) ∧
    '\t' ∉ clean_text nfc isMn x ∧
    List.Chain' cleanAdj (clean_text nfc isMn x) ∧
    (∀ h, (clean_text nfc isMn x).head? = some h → isPySpace h = false) ∧
    (∀ z, (clean_text nfc isMn x).getLast? = some z → isPySpace z = false) := by
  have hy : clean_text nfc isMn x =
      pyStrip (trimMultiline (collapseNewlines (collapseSpaces
        ((applyReplacements ((nfc x).filter (fun c => !(isMn c)))).filter
          isSafeChar)))) := rfl
  set A := (applyReplacements ((nfc x).filter (fun c => !(isMn c)))).filter
    isSafeChar with hA
  have hAsafe : ∀ c ∈ A, isSafeChar c = true := fun c hc =>
    List.of_mem_filter hc
  have hBchain : List.Chain' noTwoBlank (collapseSpaces A) :=
    (cspGo_good A false).1
  have hBtab : '\t' ∉ collapseSpaces A := csp_no_tab A false
  have hCchain : List.Chain' noTwoBlank
      (collapseNewlines (collapseSpaces A)) := cnl_chain _ hBchain 0
  have hD := trimGo_good (collapseNewlines (collapseSpaces A)).length true
    (collapseNewlines (collapseSpaces A)) le_rfl hCchain
  have hDmem : ∀ c ∈ trimMultiline (collapseNewlines (collapseSpaces A)),
      c ∈ collapseNewlines (collapseSpaces A) :=
    trimGo_mem _ true _ le_rfl
  have hymem : ∀ c ∈ clean_text nfc isMn x,
      c ∈ collapseNewlines (collapseSpaces A) := by
    intro c hc
    rw [hy] at hc
    exact hDmem c (List.IsInfix.subset (pyStrip_within _) hc)
  refine ⟨?_, ?_, ?_, ?_, ?_⟩
  · intro c hc
    rcases csp_mem A false c (cnl_mem _ 0 c (hymem c hc)) with hm | he
    · exact hAsafe c hm
    · rw [he]; decide
  · intro hc
    exact hBtab (cnl_mem _ 0 _ (hymem _ hc))
  · rw [hy]
    exact List.Chain'.infix hD.1 (pyStrip_within _)
  · rw [hy]
    exact pyStrip_head _
  · rw [hy]
    exact pyStrip_last _

/-- C6: clean_text is idempotent.  The Unicode normalizer and combining-mark
oracle are parameters; the hypotheses record the two facts true of CPython's
`unicodedata` on the safe character class, namely that a string of safe
characters is already NFC-normal and that no safe character has category
Mn. -/
theorem C6_idempotent_normalization (nfc : List Char → List Char)
    (isMn : Char → Bool)
    (Hnfc : ∀ l, (∀ c ∈ l, isSafeChar c = true) → nfc l = l)
    (HMn : ∀ c, isSafeChar c = true → isMn c = false)
    (x : List Char) :
    clean_text nfc isMn (clean_text nfc isMn x) = clean_text nfc isMn x := by
  obtain ⟨hsafe, htab, hchain, hhead, hlast⟩ := clean_text_props nfc isMn x
  set y := clean_text nfc isMn x with hy
  show pyStrip (trimMultiline (collapseNewlines (collapseSpaces
    ((applyReplacements ((nfc y).filter (fun c => !(isMn c)))).filter
      isSafeChar)))) = y
  rw [Hnfc y hsafe]
  have hMn : y.filter (fun c => !(isMn c)) = y :=
    List.filter_eq_self.mpr (fun c hc => by simp [HMn c (hsafe c hc)])
  rw [hMn, applyReplacements_safe y hsafe, List.filter_eq_self.mpr hsafe]
  have hchainNTB : List.Chain' noTwoBlank y :=
    hchain.imp (fun _ _ hab => hab.2.2)
  rw [csp_id y htab hchainNTB]
  have hNN : List.Chain' (fun a b => ¬(a = '\n' ∧ b = '\n')) y :=
    hchain.imp (fun _ _ hab hnn => hab.1 ⟨by rw [hnn.1]; decide, hnn.2⟩)
  rw [cnl_id y hNN]
  have htm : trimMultiline y = y := by
    rw [show trimMultiline y = trimGo y.length true y from rfl]
    exact trimGo_id y.length true y le_rfl hchain (fun _ => hhead) hlast
  rw [htm]
  exact pyStrip_eq_self y hhead hlast

theorem C6_witness :
    clean_text id (fun _ => false)
        (clean_text id (fun _ => false) ("  Hello,   world!  ".toList)) =
      clean_text id (fun _ => false) ("  Hello,   world!  ".toList) :=
  C6_idempotent_normalization id (fun _ => false)
    (fun _ _ => rfl) (fun _ _ => rfl) _

theorem splitNNGo_inv :
    ∀ (l : List Char) (cur : List Char) (nl : Nat), nl ≤ 1 →
      (nl = 1 → ∀ h, l.head? = some h → h ≠ '\n') →
      List.Chain' (fun a b => ¬(a = '\n' ∧ b = '\n')) l →
      splitNNGo cur nl l = [(List.replicate nl '\n' ++ cur).reverse ++ l] := by
  intro l
  induction l with
  | nil =>
    intro cur nl hnl _ _
    have h2 : ¬ 2 ≤ nl := by omega
    simp [splitNNGo, h2]
  | cons c t ih =>
    intro cur nl hnl hhd hch
    by_cases hc : c = '\n'
    · subst hc
      have hnl0 : nl = 0 := by
        rcases Nat.eq_or_lt_of_le hnl with h | h
        · exact absurd rfl (hhd h '\n' rfl)
        · omega
      subst hnl0
      have hstep : splitNNGo cur 0 ('\n' :: t) = splitNNGo cur 1 t := by
        simp [splitNNGo]
      rw [hstep, ih cur 1 (by omega) ?_ hch.tail]
      · simp
      · intro _ h hh heq
        cases t with
        | nil => simp at hh
        | cons d u =>
          simp only [List.head?_cons, Option.some.injEq] at hh
          exact (List.chain'_cons.mp hch).1 ⟨rfl, by rw [hh, heq]⟩
    · have hc' : (c == '\n') = false := by simpa using hc
      have h2 : ¬ 2 ≤ nl := by omega
      have hstep : splitNNGo cur nl (c :: t) =
          splitNNGo (c :: (List.replicate nl '\n' ++ cur)) 0 t := by
        simp [splitNNGo, hc', h2]
      rw [hstep, ih _ 0 (by omega) (by simp) hch.tail]
      simp

/-- A string with no two adjacent newlines is a single segment of the
double-newline split. -/
theorem splitNN_single (l : List Char)
    (h : List.Chain' (fun a b => ¬(a = '\n' ∧ b = '\n')) l) :
    splitOnDoubleNewlines l = [l] := by
  rw [splitOnDoubleNewlines,
    splitNNGo_inv l [] 0 (by omega) (fun h0 => absurd h0 (by omega)) h]
  simp

/-- C4: concatenating, in order, the chunks that `chunk_paragraphs` produces
from a cleaned text restores that text exactly; since `clean_text` never
leaves two adjacent newlines, the text is one paragraph, so no join
separator is ever inserted and no character is lost. -/
theorem C4_chunk_fidelity (nfc : List Char → List Char) (isMn : Char → Bool)
    (x : List Char) (maxChars : Nat) :
    (chunk_paragraphs (clean_text nfc isMn x) maxChars).flatten =
      clean_text nfc isMn x := by
  obtain ⟨-, -, hchain, hhead, hlast⟩ := clean_text_props nfc isMn x
  set y := clean_text nfc isMn x with hy
  have hNN : List.Chain' (fun a b => ¬(a = '\n' ∧ b = '\n')) y :=
    hchain.imp (fun _ _ hab hnn => hab.1 ⟨by rw [hnn.1]; decide, hnn.2⟩)
  have hsplit : splitOnDoubleNewlines y = [y] := splitNN_single y hNN
  have hstrip : pyStrip y = y := pyStrip_eq_self y hhead hlast
  by_cases hynil : y = []
  · rw [hynil]
    rfl
  · have hpar : paragraphsOf y = [y] := by
      rw [paragraphsOf, hsplit]
      simp [hstrip, hynil]
    have hgroups : chunkGroups y maxChars = [[y]] := by
      rw [chunkGroups, hpar]
      simp [chunkGroupsGo]
    rw [chunk_paragraphs, hgroups]
    simp [List.intercalate]
